import Mathlib

set_option autoImplicit false

/-!
Verification development for the go-tsunami server.

The Go sources are shallowly embedded: byte strings on the TCP control
channel become `List Char`, UDP datagrams become `List Nat` (one `Nat`
per byte), 64-bit unsigned arithmetic is `Nat` arithmetic with explicit
reduction modulo `2 ^ 64` where the Go code can wrap, and the mutable
per-client transmission state becomes a record that the engine
operations transform functionally.
-/

namespace GoTsunami

/-! ## Models of the Go string primitives used by the wire codec -/

/-- The white-space test used by strings.Fields, strings.TrimSpace and
the fmt scanners (unicode.IsSpace restricted to the code points it
accepts: ASCII space, tab, LF, VT, FF, CR, NEL, NBSP and the Unicode
space separators). -/
def goIsSpace (c : Char) : Bool :=
  c.toNat = 32 || c.toNat = 9 || c.toNat = 10 || c.toNat = 11 || c.toNat = 12 ||
  c.toNat = 13 || c.toNat = 133 || c.toNat = 160 || c.toNat = 0x1680 ||
  (0x2000 ≤ c.toNat && c.toNat ≤ 0x200A) || c.toNat = 0x2028 || c.toNat = 0x2029 ||
  c.toNat = 0x202F || c.toNat = 0x205F || c.toNat = 0x3000

/-- Negation of `goIsSpace`, the predicate satisfied by field bytes. -/
def notSpace (c : Char) : Bool := !goIsSpace c

/-- ASCII case mapping of strings.ToUpper.  The protocol instruction
tokens are ASCII, so only the ASCII fragment of the Go function is
relevant to the commands. -/
def upperChar (c : Char) : Char :=
  if 97 ≤ c.toNat ∧ c.toNat ≤ 122 then Char.ofNat (c.toNat - 32) else c

/-- Model of strings.ToUpper on the command tokens. -/
def goToUpper (s : List Char) : List Char := s.map upperChar

/-- Left part of strings.TrimSpace. -/
def goTrimLeft (s : List Char) : List Char := s.dropWhile goIsSpace

/-- Right part of strings.TrimSpace. -/
def goTrimRight (s : List Char) : List Char := (s.reverse.dropWhile goIsSpace).reverse

/-- Model of strings.TrimSpace: trim white space on both ends. -/
def goTrim (s : List Char) : List Char := goTrimRight (goTrimLeft s)

/-- Fuel-indexed worker for strings.Fields.  The fuel only makes the
recursion structural (so that closed instances reduce inside the
kernel); it is irrelevant once it dominates the string length. -/
def fieldsFuel : Nat → List Char → List (List Char)
  | _, [] => []
  | 0, _ :: _ => []
  | fuel + 1, c :: cs =>
    if goIsSpace c then fieldsFuel fuel cs
    else (c :: cs.takeWhile notSpace) :: fieldsFuel fuel (cs.dropWhile notSpace)

/-- Model of strings.Fields: split on maximal runs of white space. -/
def fields (s : List Char) : List (List Char) := fieldsFuel s.length s

/-- The carriage-return stripping of bufio.ScanLines: one trailing CR
is removed from the returned line. -/
def dropCR (l : List Char) : List Char :=
  if l.getLast? = some (Char.ofNat 13) then l.dropLast else l

/-- Model of reading one line with bufio.Scanner (ScanLines split
function): everything before the first LF, with a trailing CR dropped. -/
def scanLine (s : List Char) : List Char :=
  dropCR (s.takeWhile (fun c => c ≠ Char.ofNat 10))

/-- ASCII decimal digit test of strconv.ParseUint with base 10. -/
def isDigitC (c : Char) : Bool := 48 ≤ c.toNat && c.toNat ≤ 57

/-- Numeric value of an ASCII digit. -/
def digitVal (c : Char) : Nat := c.toNat - 48

/-- ASCII digit for a value below ten. -/
def digitChar (d : Nat) : Char :=
  match d with
  | 0 => '0'
  | 1 => '1'
  | 2 => '2'
  | 3 => '3'
  | 4 => '4'
  | 5 => '5'
  | 6 => '6'
  | 7 => '7'
  | 8 => '8'
  | _ => '9'

/-- Fuel-indexed worker for the decimal rendering; the fuel only makes
the recursion structural and is irrelevant once it exceeds the value. -/
def natDigitsFuel : Nat → Nat → List Char
  | 0, _ => []
  | fuel + 1, n =>
    if n < 10 then [digitChar n]
    else natDigitsFuel fuel (n / 10) ++ [digitChar (n % 10)]

/-- Decimal digits of a natural number, most significant first; the
rendering used by the %d verb of fmt.Fprintf on uint64 values. -/
def natDigits (n : Nat) : List Char := natDigitsFuel (n + 1) n

/-- Value of a digit string read most significant first. -/
def digitsVal (s : List Char) : Nat := s.foldl (fun a c => 10 * a + digitVal c) 0

/-- Model of strconv.ParseUint(s, 10, 64): the string must be a
non-empty run of ASCII digits whose value fits in 64 bits; Go reports
an error otherwise (syntax error or range error). -/
def parseUintChars (s : List Char) : Option Nat :=
  if s = [] then none
  else if s.all isDigitC then
    if digitsVal s < 2 ^ 64 then some (digitsVal s) else none
  else none

/-! ## Wire codec data model

The rich codec variant (src/unnamed/part_000, package common) is the
one the server tests exercise; the minimal Fscan-based variant
(src/protocol/common/commands.go) is modelled separately below with a
Min suffix. -/

instance decEqExcept {ε α : Type} [DecidableEq ε] [DecidableEq α] :
    DecidableEq (Except ε α) := fun a b =>
  match a, b with
  | .ok x, .ok y => decidable_of_iff (x = y) (by simp)
  | .error x, .error y => decidable_of_iff (x = y) (by simp)
  | .ok _, .error _ => .isFalse (by simp)
  | .error _, .ok _ => .isFalse (by simp)

inductive TcpInstruction
  | GET
  | RETR
  | OK
  | ERR
  | REST
  | DONE
  | INVALID
deriving DecidableEq, Repr

/-- Error categories of the codec, from the ProtocolError implementation
bundled at the end of src/protocol/common/commands_test.go: every error
the rich codec returns is a ProtocolError carrying an ErrorCode, built
by newParseError (code ErrParseError, string parse_error), by
newValidationError (code ErrValidationFailed, string validation_failed)
or by newProtocolError (code ErrInvalidFormat, string invalid_format).
The model keeps one constructor per code the codec constructs; a
delegate error passes through UnmarshalCommand with its code unchanged,
matching the ProtocolError pass-through at the end of UnmarshalCommand
in part_000 (non-ProtocolError delegate errors would be wrapped as
invalid_format there, but every delegate of part_000 only returns
ProtocolErrors).  genericE stands for the category-less fmt errors of
the minimal commands.go variant. -/
inductive CmdError
  | parseE
  | protocolE
  | validationE
  | genericE
deriving DecidableEq, Repr

/-- The Command payloads, one constructor per instruction. -/
inductive Cmd
  | get (filename : List Char) (blocksize udpPort : Nat)
  | ok (filesize : Nat)
  | retr (blockIndex : Nat)
  | rest (blockIndex : Nat)
  | err (msg : List Char)
  | done
deriving DecidableEq, Repr

/-- ParseTcpInstruction: trim, upper-case, match the six tokens. -/
def ParseTcpInstruction (s : List Char) : Except CmdError TcpInstruction :=
  let t := goToUpper (goTrim s)
  if t = ['G', 'E', 'T'] then .ok .GET
  else if t = ['R', 'E', 'T', 'R'] then .ok .RETR
  else if t = ['O', 'K'] then .ok .OK
  else if t = ['E', 'R', 'R'] then .ok .ERR
  else if t = ['R', 'E', 'S', 'T'] then .ok .REST
  else if t = ['D', 'O', 'N', 'E'] then .ok .DONE
  else .error .parseE

/-- GetCommand.UnmarshalBinary of part_000: trim, split, require four
fields, parse the numbers, then validate filename, blocksize, port. -/
def getUnmarshalBinary (data : List Char) : Except CmdError Cmd :=
  match fields (goTrim data) with
  | [p0, p1, p2, p3] =>
    match ParseTcpInstruction p0 with
    | .error e => .error e
    | .ok i =>
      if i ≠ .GET then .error .protocolE
      else
        match parseUintChars p2 with
        | none => .error .parseE
        | some blocksize =>
          match parseUintChars p3 with
          | none => .error .parseE
          | some udpPort =>
            if p1 = [] then .error .validationE
            else if blocksize = 0 then .error .validationE
            else if udpPort = 0 ∨ udpPort > 65535 then .error .validationE
            else .ok (.get p1 blocksize udpPort)
  | _ => .error .parseE

/-- OkCommand.UnmarshalBinary of part_000. -/
def okUnmarshalBinary (data : List Char) : Except CmdError Cmd :=
  match fields (goTrim data) with
  | [p0, p1] =>
    match ParseTcpInstruction p0 with
    | .error e => .error e
    | .ok i =>
      if i ≠ .OK then .error .protocolE
      else
        match parseUintChars p1 with
        | none => .error .parseE
        | some filesize => .ok (.ok filesize)
  | _ => .error .parseE

/-- RetrCommand.UnmarshalBinary of part_000. -/
def retrUnmarshalBinary (data : List Char) : Except CmdError Cmd :=
  match fields (goTrim data) with
  | [p0, p1] =>
    match ParseTcpInstruction p0 with
    | .error e => .error e
    | .ok i =>
      if i ≠ .RETR then .error .protocolE
      else
        match parseUintChars p1 with
        | none => .error .parseE
        | some blockIndex => .ok (.retr blockIndex)
  | _ => .error .parseE

/-- RestCommand.UnmarshalBinary of part_000. -/
def restUnmarshalBinary (data : List Char) : Except CmdError Cmd :=
  match fields (goTrim data) with
  | [p0, p1] =>
    match ParseTcpInstruction p0 with
    | .error e => .error e
    | .ok i =>
      if i ≠ .REST then .error .protocolE
      else
        match parseUintChars p1 with
        | none => .error .parseE
        | some blockIndex => .ok (.rest blockIndex)
  | _ => .error .parseE

/-- ErrCommand.UnmarshalBinary of part_000: the message may contain
spaces, so the decoder checks the upper-cased line for the four-byte
ERR-and-space head, requires more than four bytes, and trims the rest. -/
def errUnmarshalBinary (data : List Char) : Except CmdError Cmd :=
  if (goToUpper (goTrim data)).take 4 = ['E', 'R', 'R', ' '] then
    if (goTrim data).length ≤ 4 then .error .validationE
    else .ok (.err (goTrim ((goTrim data).drop 4)))
  else .error .protocolE

/-- DoneCommand.UnmarshalBinary of part_000: one field that must parse
to DONE. -/
def doneUnmarshalBinary (data : List Char) : Except CmdError Cmd :=
  match fields (goTrim data) with
  | [p0] =>
    match ParseTcpInstruction p0 with
    | .error e => .error e
    | .ok i => if i ≠ .DONE then .error .protocolE else .ok .done
  | _ => .error .parseE

/-- UnmarshalCommand of part_000: reject empty data, read the first
line, take its first white-space delimited token, dispatch on the
instruction and delegate to the variant decoder on the full data. -/
def UnmarshalCommand (data : List Char) : Except CmdError Cmd :=
  if data = [] then .error .protocolE
  else
    match (fields (scanLine data)).head? with
    | none => .error .protocolE
    | some p0 =>
      match ParseTcpInstruction p0 with
      | .error e => .error e
      | .ok .GET => getUnmarshalBinary data
      | .ok .RETR => retrUnmarshalBinary data
      | .ok .OK => okUnmarshalBinary data
      | .ok .ERR => errUnmarshalBinary data
      | .ok .REST => restUnmarshalBinary data
      | .ok .DONE => doneUnmarshalBinary data
      | .ok .INVALID => .error .protocolE

/-- MarshalBinary of the six commands in part_000, written there with
fmt.Fprintf: instruction token, the fields separated by single spaces,
one trailing LF. -/
def MarshalBinary : Cmd → List Char
  | .get fn bs p =>
    ['G', 'E', 'T', ' '] ++ fn ++ ' ' :: natDigits bs ++ ' ' :: natDigits p ++ [Char.ofNat 10]
  | .ok n => ['O', 'K', ' '] ++ natDigits n ++ [Char.ofNat 10]
  | .retr n => ['R', 'E', 'T', 'R', ' '] ++ natDigits n ++ [Char.ofNat 10]
  | .rest n => ['R', 'E', 'S', 'T', ' '] ++ natDigits n ++ [Char.ofNat 10]
  | .err m => ['E', 'R', 'R', ' '] ++ m ++ [Char.ofNat 10]
  | .done => ['D', 'O', 'N', 'E', Char.ofNat 10]

/-! ## The minimal codec variant of src/protocol/common/commands.go -/

/-- GetCommand.UnmarshalBinary of commands.go, built on fmt.Fscanln:
four tokens on the first line, numbers parsed as decimal, then the
instruction is parsed and compared against GET. -/
def getUnmarshalBinaryMin (data : List Char) : Except CmdError Cmd :=
  match fields (data.takeWhile (fun c => c ≠ Char.ofNat 10)) with
  | [p0, p1, p2, p3] =>
    match parseUintChars p2, parseUintChars p3 with
    | some blocksize, some udpPort =>
      match ParseTcpInstruction p0 with
      | .error e => .error e
      | .ok i => if i ≠ .GET then .error .genericE else .ok (.get p1 blocksize udpPort)
    | _, _ => .error .genericE
  | _ => .error .genericE

/-- UnmarshalCommand of commands.go: scan the first token with
fmt.Fscan, parse the instruction, and dispatch — the switch handles
only GET and reports every other instruction as an unknown command. -/
def UnmarshalCommandMin (data : List Char) : Except CmdError Cmd :=
  match (fields data).head? with
  | none => .error .genericE
  | some t =>
    match ParseTcpInstruction t with
    | .error e => .error e
    | .ok .GET => getUnmarshalBinaryMin data
    | .ok _ => .error .genericE

/-- DoneCommand.UnmarshalBinary of commands.go: one token on the line,
parsed as an instruction and then compared against ERR — the comparison
the source really performs (commands.go line 234). -/
def doneUnmarshalBinaryMin (data : List Char) : Except CmdError Unit :=
  match fields (data.takeWhile (fun c => c ≠ Char.ofNat 10)) with
  | [p0] =>
    match ParseTcpInstruction p0 with
    | .error e => .error e
    | .ok i => if i ≠ .ERR then .error .genericE else .ok ()
  | _ => .error .genericE

/-! ## Server engine (src/protocol/server/server.go)

Files are byte lists; a file handle is the byte list plus an explicit
read position (sequential Read consumes from the position, Seek sets
it).  UDP datagrams are byte lists; the engine operations return the
datagrams they write together with the transformed state. -/

/-- The eight header bytes written before each block: byte() casts of
blockIndex shifted right by 56, 48, ..., 8, 0 — big-endian uint64. -/
def be64 (i : Nat) : List Nat :=
  [i / 2 ^ 56 % 256, i / 2 ^ 48 % 256, i / 2 ^ 40 % 256, i / 2 ^ 32 % 256,
   i / 2 ^ 24 % 256, i / 2 ^ 16 % 256, i / 2 ^ 8 % 256, i % 256]

/-- The uint64 computation (fileSize + cmd.Blocksize - 1) / cmd.Blocksize
of createTransmissionState (server.go:448).  uint64 addition and the
subtraction of one wrap modulo 2 ^ 64; with blocksize at least one the
chain of wraps collapses to the single reduction written here. -/
def totalBlocksGo (size blocksize : Nat) : Nat :=
  ((size + blocksize - 1) % 2 ^ 64) / blocksize

/-- The exact ceiling of size / blocksize in unbounded arithmetic,
stated independently of the uint64 formula: quotient plus one when a
remainder exists. -/
def ceilSpec (size blocksize : Nat) : Nat :=
  size / blocksize + if size % blocksize = 0 then 0 else 1

/-- transmissionState of server.go (the network handles clientAddr and
udpConn carry no protocol-visible state beyond the datagrams the model
returns, and the mutex serializes the operations the model applies in
sequence, so neither needs a field here). -/
structure TransState where
  filename : List Char
  blockSize : Nat
  totalBlocks : Nat
  sentBlocks : Finset Nat
  file : List Nat
  pos : Nat
deriving DecidableEq

/-- Errors of the engine operations, carrying the data the fmt.Errorf
messages of the source interpolate. -/
inductive TransError
  | outOfRange (blockIndex totalBlocks : Nat)
  | noData (blockIndex : Nat)
deriving DecidableEq, Repr

/-- The block loop shared by startFileTransmission (server.go:373-421)
and the tail of restartFromBlock (server.go:592-625): while fuel
remains, read up to B bytes at the current position, stop on a zero
read, otherwise emit the header-plus-chunk datagram, mark the index
sent, advance.  Returns the datagrams, the final sent set and the
final position. -/
def sendLoop (B : Nat) (file : List Nat) :
    Nat → Nat → Finset Nat → Nat → List (List Nat) × Finset Nat × Nat
  | pos, _, sent, 0 => ([], sent, pos)
  | pos, idx, sent, fuel + 1 =>
    let chunk := (file.drop pos).take B
    if chunk.length = 0 then ([], sent, pos)
    else
      let out := sendLoop B file (pos + chunk.length) (idx + 1) (insert idx sent) fuel
      ((be64 idx ++ chunk) :: out.1, out.2.1, out.2.2)

/-- The transmissionState record built at server.go:463-471 for a
freshly opened file: empty sent set, position zero, block count from
the uint64 formula (the pure filesystem stats the byte list length). -/
def newTransmissionState (filename : List Char) (file : List Nat) (blockSize : Nat) :
    TransState :=
  { filename := filename
    blockSize := blockSize
    totalBlocks := totalBlocksGo file.length blockSize
    sentBlocks := ∅
    file := file
    pos := 0 }

/-- startFileTransmission (server.go:354-428): run the block loop over
the whole file from the current position with indices from zero. -/
def startFileTransmission (ts : TransState) : TransState × List (List Nat) :=
  let out := sendLoop ts.blockSize ts.file ts.pos 0 ts.sentBlocks ts.totalBlocks
  ({ ts with sentBlocks := out.2.1, pos := out.2.2 }, out.1)

/-- retransmitBlock (server.go:507-562): range check, seek to
blockIndex * blockSize (uint64 multiplication, hence the reduction),
read one block, error on empty read — the seek has already moved the
position — otherwise send and mark sent. -/
def retransmitBlock (ts : TransState) (blockIndex : Nat) :
    TransState × Except TransError (List Nat) :=
  if ts.totalBlocks ≤ blockIndex then
    (ts, .error (.outOfRange blockIndex ts.totalBlocks))
  else if ((ts.file.drop (blockIndex * ts.blockSize % 2 ^ 64)).take ts.blockSize).length = 0 then
    ({ ts with pos := blockIndex * ts.blockSize % 2 ^ 64 }, .error (.noData blockIndex))
  else
    ({ ts with
        pos := blockIndex * ts.blockSize % 2 ^ 64 +
          ((ts.file.drop (blockIndex * ts.blockSize % 2 ^ 64)).take ts.blockSize).length
        sentBlocks := insert blockIndex ts.sentBlocks },
      .ok (be64 blockIndex ++ (ts.file.drop (blockIndex * ts.blockSize % 2 ^ 64)).take ts.blockSize))

/-- The delete loop of restartFromBlock (server.go:574-576): erase the
indices blockIndex, blockIndex + 1, ... one by one. -/
def clearFrom (sent : Finset Nat) (i : Nat) : Nat → Finset Nat
  | 0 => sent
  | fuel + 1 => clearFrom (sent.erase i) (i + 1) fuel

/-- restartFromBlock (server.go:565-628): range check, clear the sent
set from blockIndex on, seek to blockIndex * blockSize, stream the
remaining blocks with the shared loop. -/
def restartFromBlock (ts : TransState) (blockIndex : Nat) :
    TransState × Except TransError (List (List Nat)) :=
  if ts.totalBlocks ≤ blockIndex then
    (ts, .error (.outOfRange blockIndex ts.totalBlocks))
  else
    ({ ts with
        sentBlocks := (sendLoop ts.blockSize ts.file (blockIndex * ts.blockSize % 2 ^ 64)
          blockIndex (clearFrom ts.sentBlocks blockIndex (ts.totalBlocks - blockIndex))
          (ts.totalBlocks - blockIndex)).2.1
        pos := (sendLoop ts.blockSize ts.file (blockIndex * ts.blockSize % 2 ^ 64)
          blockIndex (clearFrom ts.sentBlocks blockIndex (ts.totalBlocks - blockIndex))
          (ts.totalBlocks - blockIndex)).2.2 },
      .ok (sendLoop ts.blockSize ts.file (blockIndex * ts.blockSize % 2 ^ 64)
        blockIndex (clearFrom ts.sentBlocks blockIndex (ts.totalBlocks - blockIndex))
        (ts.totalBlocks - blockIndex)).1)

/-! ## The GET handling path (server.go handleGetCommand plus
createTransmissionState), with the fallible externals — the filesystem
and the UDP dial — supplied as oracles. -/

/-- Outcomes of the external calls a single GET performs: the
open-plus-stat of GetFileSize, then the open, stat and DialUDP of
createTransmissionState.  The error payloads are opaque. -/
structure GetEnv where
  sizeCheck : Except Unit Nat
  openRes : Except Unit (List Nat)
  statRes : Except Unit Nat
  dialRes : Except Unit Unit

/-- The error constructors of server.go that createTransmissionState
uses: newFileError for open and stat, newNetworkError for DialUDP. -/
inductive ServerError
  | fileError
  | networkError
deriving DecidableEq, Repr

/-- What the session writes back on the TCP control channel. -/
inductive Reply
  | okReply (filesize : Nat)
  | errReply
deriving DecidableEq, Repr

/-- Result of createTransmissionState: the returned state or error, the
registry after the call, and whether the file handle opened by this
attempt was opened and closed. -/
structure CreateOutcome where
  res : Except ServerError TransState
  registry : String → Option TransState
  fileOpened : Bool
  fileClosed : Bool

/-- createTransmissionState (server.go:433-478): open, stat (closing
the file on failure), dial (closing the file on failure), then build
the state and store it in the registry under the client IP. -/
def createTransmissionState (env : GetEnv) (reg : String → Option TransState)
    (clientIP : String) (filename : List Char) (blocksize : Nat) : CreateOutcome :=
  match env.openRes with
  | .error _ =>
    { res := .error .fileError, registry := reg, fileOpened := false, fileClosed := false }
  | .ok file =>
    match env.statRes with
    | .error _ =>
      { res := .error .fileError, registry := reg, fileOpened := true, fileClosed := true }
    | .ok size =>
      match env.dialRes with
      | .error _ =>
        { res := .error .networkError, registry := reg,
          fileOpened := true, fileClosed := true }
      | .ok _ =>
        let st : TransState :=
          { filename := filename
            blockSize := blocksize
            totalBlocks := totalBlocksGo size blocksize
            sentBlocks := ∅
            file := file
            pos := 0 }
        { res := .ok st
          registry := fun ip => if ip = clientIP then some st else reg ip
          fileOpened := true
          fileClosed := false }

/-- TCP-visible outcome of one GET: the replies written, the registry
afterwards, and the created-file bookkeeping. -/
structure GetRunOutcome where
  replies : List Reply
  registry : String → Option TransState
  fileOpened : Bool
  fileClosed : Bool

/-- handleGetCommand (server.go:235-281) followed by the spawned
startFileTransmission prologue: if the initial GetFileSize fails the
session sends ERR and returns (GetFileSize closes its own handle by
defer); otherwise OK is sent and flushed, and the background task calls
createTransmissionState — whose failure is only logged (the goroutine
at server.go:273-278 sends nothing on TCP). -/
def handleGetRun (env : GetEnv) (reg : String → Option TransState)
    (clientIP : String) (filename : List Char) (blocksize : Nat) : GetRunOutcome :=
  match env.sizeCheck with
  | .error _ =>
    { replies := [.errReply], registry := reg, fileOpened := false, fileClosed := false }
  | .ok size =>
    let c := createTransmissionState env reg clientIP filename blocksize
    { replies := [.okReply size], registry := c.registry,
      fileOpened := c.fileOpened, fileClosed := c.fileClosed }

/-- A concrete mid-transfer state: the 100-byte file of scenario S2
with block size 10, ten blocks total, all already sent. -/
def sampleState : TransState :=
  { filename := ['t']
    blockSize := 10
    totalBlocks := 10
    sentBlocks := Finset.range 10
    file := List.replicate 100 120
    pos := 100 }

/-- The registry key used by the concrete GET runs. -/
def ipA : String := "ip"

/-- The environment in which the initial size check succeeds and the
UDP dial of the background task fails. -/
def envDialFail : GetEnv :=
  { sizeCheck := .ok 20
    openRes := .ok (List.replicate 20 120)
    statRes := .ok 20
    dialRes := .error () }


/-- The declared bounds of claim C2 on Command values, with the
amendment the codec forces on Err: the message must carry no leading or
trailing white space (the decoder trims it away) and no line feed (the
wire format is one line). -/
def withinDeclaredBounds : Cmd → Prop
  | .get fn bs p =>
    fn ≠ [] ∧ (∀ c ∈ fn, goIsSpace c = false) ∧
      0 < bs ∧ bs < 2 ^ 64 ∧ 0 < p ∧ p ≤ 65535
  | .ok n => n < 2 ^ 64
  | .retr n => n < 2 ^ 64
  | .rest n => n < 2 ^ 64
  | .err m => m ≠ [] ∧ goTrim m = m ∧ Char.ofNat 10 ∉ m
  | .done => True

/-- The bounds that every successfully decoded command satisfies:
exactly the validations the part_000 decoders enforce. -/
def decodedWithinBounds : Cmd → Prop
  | .get fn bs p =>
    fn ≠ [] ∧ (∀ c ∈ fn, goIsSpace c = false) ∧
      0 < bs ∧ bs < 2 ^ 64 ∧ 0 < p ∧ p ≤ 65535
  | .ok n => n < 2 ^ 64
  | .retr n => n < 2 ^ 64
  | .rest n => n < 2 ^ 64
  | .err m => m ≠ [] ∧ goTrim m = m
  | .done => True

/-! ## Lemmas about the string-primitive models -/

theorem length_dropWhile_le (p : Char → Bool) (l : List Char) :
    (l.dropWhile p).length ≤ l.length := by
  induction l with
  | nil => simp
  | cons c cs ih =>
    by_cases h : p c
    · simp only [List.dropWhile_cons_of_pos h]
      exact Nat.le_trans ih (Nat.le_succ _)
    · simp [List.dropWhile_cons_of_neg h]

theorem fieldsFuel_nil (f : Nat) : fieldsFuel f [] = [] := by
  cases f <;> rfl

theorem fieldsFuel_congr : ∀ f1 : Nat, ∀ s : List Char, ∀ f2 : Nat,
    s.length ≤ f1 → s.length ≤ f2 → fieldsFuel f1 s = fieldsFuel f2 s := by
  intro f1
  induction f1 with
  | zero =>
    intro s f2 h1 _
    have hs : s = [] := List.eq_nil_of_length_eq_zero (Nat.le_zero.mp h1)
    subst hs
    rw [fieldsFuel_nil, fieldsFuel_nil]
  | succ g ih =>
    intro s f2 h1 h2
    cases s with
    | nil => rw [fieldsFuel_nil, fieldsFuel_nil]
    | cons c cs =>
      cases f2 with
      | zero => simp at h2
      | succ h =>
        simp only [List.length_cons, Nat.succ_le_succ_iff] at h1 h2
        simp only [fieldsFuel]
        cases hc : goIsSpace c
        · simp only [hc, Bool.false_eq_true, if_false, List.cons.injEq, true_and]
          exact ih (cs.dropWhile notSpace) h
            (Nat.le_trans (length_dropWhile_le _ _) h1)
            (Nat.le_trans (length_dropWhile_le _ _) h2)
        · simp only [hc, if_true]
          exact ih cs h h1 h2

theorem fields_cons (c : Char) (cs : List Char) :
    fields (c :: cs) =
      if goIsSpace c then fields cs
      else (c :: cs.takeWhile notSpace) :: fields (cs.dropWhile notSpace) := by
  show fieldsFuel (cs.length + 1) (c :: cs) = _
  simp only [fieldsFuel]
  cases hc : goIsSpace c
  · simp only [hc, Bool.false_eq_true, if_false, List.cons.injEq, true_and]
    exact fieldsFuel_congr cs.length (cs.dropWhile notSpace) (cs.dropWhile notSpace).length
      (length_dropWhile_le _ _) (Nat.le_refl _)
  · simp only [hc, if_true]
    rfl

theorem natDigitsFuel_congr : ∀ f1 : Nat, ∀ n f2 : Nat, n < f1 → n < f2 →
    natDigitsFuel f1 n = natDigitsFuel f2 n := by
  intro f1
  induction f1 with
  | zero => intro n f2 h1 _; exact absurd h1 (Nat.not_lt_zero n)
  | succ g ih =>
    intro n f2 h1 h2
    cases f2 with
    | zero => exact absurd h2 (Nat.not_lt_zero n)
    | succ h =>
      simp only [natDigitsFuel]
      by_cases hn : n < 10
      · simp [hn]
      · have hdiv : n / 10 < n := Nat.div_lt_self (by omega) (by omega)
        simp only [hn, if_false]
        rw [ih (n / 10) h (by omega) (by omega)]

theorem natDigits_step (n : Nat) :
    natDigits n =
      if n < 10 then [digitChar n] else natDigits (n / 10) ++ [digitChar (n % 10)] := by
  show natDigitsFuel (n + 1) n = _
  simp only [natDigitsFuel]
  by_cases hn : n < 10
  · simp [hn]
  · have hdiv : n / 10 < n := Nat.div_lt_self (by omega) (by omega)
    simp only [hn, if_false]
    rw [natDigitsFuel_congr n (n / 10) (n / 10 + 1) (by omega) (by omega)]
    rfl

/-! ## Digit, fields, trim and scan lemmas -/

theorem digitChar_spec (d : Nat) (h : d < 10) :
    isDigitC (digitChar d) = true ∧ digitVal (digitChar d) = d := by
  interval_cases d <;> exact ⟨rfl, rfl⟩

theorem isDigitC_not_space (c : Char) (h : isDigitC c = true) : goIsSpace c = false := by
  unfold isDigitC at h
  simp only [Bool.and_eq_true, decide_eq_true_eq] at h
  unfold goIsSpace
  simp only [Bool.or_eq_false_iff, Bool.and_eq_false_iff, decide_eq_false_iff_not]
  omega

theorem isDigitC_ne_lf (c : Char) (h : isDigitC c = true) : c ≠ Char.ofNat 10 := by
  unfold isDigitC at h
  simp only [Bool.and_eq_true, decide_eq_true_eq] at h
  intro hc
  subst hc
  simp at h

theorem natDigits_all_digit (n : Nat) : ∀ c ∈ natDigits n, isDigitC c = true := by
  induction n using Nat.strong_induction_on with
  | _ n ih =>
    rw [natDigits_step]
    by_cases h : n < 10
    · simp only [h, if_true]
      intro c hc
      rw [List.mem_singleton] at hc
      subst hc
      exact (digitChar_spec n h).1
    · simp only [h, if_false]
      intro c hc
      rcases List.mem_append.mp hc with hc | hc
      · exact ih (n / 10) (Nat.div_lt_self (by omega) (by omega)) c hc
      · rw [List.mem_singleton] at hc
        subst hc
        exact (digitChar_spec (n % 10) (Nat.mod_lt _ (by omega))).1

theorem natDigits_ne_nil (n : Nat) : natDigits n ≠ [] := by
  rw [natDigits_step]
  by_cases h : n < 10
  · simp [h]
  · simp [h]

theorem digitsVal_append_one (xs : List Char) (c : Char) :
    digitsVal (xs ++ [c]) = 10 * digitsVal xs + digitVal c := by
  unfold digitsVal
  rw [List.foldl_append]
  rfl

theorem digitsVal_natDigits (n : Nat) : digitsVal (natDigits n) = n := by
  induction n using Nat.strong_induction_on with
  | _ n ih =>
    rw [natDigits_step]
    by_cases h : n < 10
    · simp only [h, if_true]
      show 10 * 0 + digitVal (digitChar n) = n
      rw [(digitChar_spec n h).2]
      omega
    · simp only [h, if_false]
      rw [digitsVal_append_one, ih (n / 10) (Nat.div_lt_self (by omega) (by omega)),
        (digitChar_spec (n % 10) (Nat.mod_lt _ (by omega))).2]
      omega

theorem parseUint_natDigits (n : Nat) (h : n < 2 ^ 64) :
    parseUintChars (natDigits n) = some n := by
  unfold parseUintChars
  rw [if_neg (natDigits_ne_nil n)]
  have hall : (natDigits n).all isDigitC = true := by
    rw [List.all_eq_true]
    exact natDigits_all_digit n
  rw [if_pos hall, digitsVal_natDigits, if_pos h]


theorem fields_space_cons (c : Char) (s : List Char) (h : goIsSpace c = true) :
    fields (c :: s) = fields s := by
  rw [fields_cons, if_pos h]

theorem fields_token (t r : List Char) (ht : t ≠ [])
    (hall : ∀ c ∈ t, goIsSpace c = false)
    (hr : ∀ a, r.head? = some a → goIsSpace a = true) :
    fields (t ++ r) = t :: fields r := by
  cases t with
  | nil => exact absurd rfl ht
  | cons a t2 =>
    have ha : goIsSpace a = false := hall a (List.mem_cons_self _ _)
    rw [List.cons_append, fields_cons, if_neg (by simp [ha])]
    have htake2 : (t2 ++ r).takeWhile notSpace = t2 ++ r.takeWhile notSpace :=
      List.takeWhile_append_of_pos
        (fun c hc => by simp [notSpace, hall c (List.mem_cons_of_mem _ hc)])
    have htaker : r.takeWhile notSpace = [] := by
      cases r with
      | nil => rfl
      | cons b r2 =>
        rw [List.takeWhile_cons_of_neg (by simp [notSpace, hr b rfl])]
    have hdrop2 : (t2 ++ r).dropWhile notSpace = r.dropWhile notSpace :=
      List.dropWhile_append_of_pos
        (fun c hc => by simp [notSpace, hall c (List.mem_cons_of_mem _ hc)])
    have hdropr : r.dropWhile notSpace = r := by
      cases r with
      | nil => rfl
      | cons b r2 =>
        rw [List.dropWhile_cons_of_neg (by simp [notSpace, hr b rfl])]
    rw [htake2, htaker, hdrop2, hdropr, List.append_nil]

theorem fields_singleton (t : List Char) (ht : t ≠ [])
    (hall : ∀ c ∈ t, goIsSpace c = false) : fields t = [t] := by
  have h := fields_token t [] ht hall (by intro a ha; simp at ha)
  simpa using h

theorem goTrimLeft_clean (s : List Char)
    (h : ∀ a, s.head? = some a → goIsSpace a = false) : goTrimLeft s = s := by
  cases s with
  | nil => rfl
  | cons a s2 =>
    unfold goTrimLeft
    rw [List.dropWhile_cons_of_neg (by simp [h a rfl])]

theorem goTrimRight_append_space (s w : List Char)
    (hw : ∀ c ∈ w, goIsSpace c = true) : goTrimRight (s ++ w) = goTrimRight s := by
  unfold goTrimRight
  rw [List.reverse_append,
    List.dropWhile_append_of_pos (fun c hc => hw c (List.mem_reverse.mp hc))]

theorem goTrimRight_clean (s : List Char)
    (h : ∀ a, s.getLast? = some a → goIsSpace a = false) : goTrimRight s = s := by
  unfold goTrimRight
  cases hrev : s.reverse with
  | nil =>
    simp [List.reverse_eq_nil_iff.mp hrev]
  | cons a r2 =>
    have ha : s.getLast? = some a := by
      rw [← List.head?_reverse, hrev]
      rfl
    rw [List.dropWhile_cons_of_neg (by simp [h a ha]), ← hrev, List.reverse_reverse]

theorem goTrim_line (l : List Char)
    (hhead : ∀ a, l.head? = some a → goIsSpace a = false)
    (hlast : ∀ a, l.getLast? = some a → goIsSpace a = false) :
    goTrim (l ++ [Char.ofNat 10]) = l := by
  cases l with
  | nil => decide
  | cons a l2 =>
    have ha : goIsSpace a = false := hhead a rfl
    unfold goTrim
    rw [goTrimLeft_clean ((a :: l2) ++ [Char.ofNat 10])
      (by
        intro b hb
        rw [List.cons_append] at hb
        injection hb with hb
        subst hb
        exact ha)]
    rw [goTrimRight_append_space (a :: l2) [Char.ofNat 10]
      (by
        intro c hc
        rw [List.mem_singleton] at hc
        subst hc
        decide)]
    exact goTrimRight_clean _ hlast

theorem scanLine_line (l : List Char) (hnl : Char.ofNat 10 ∉ l)
    (hcr : l.getLast? ≠ some (Char.ofNat 13)) :
    scanLine (l ++ [Char.ofNat 10]) = l := by
  unfold scanLine
  have htake : (l ++ [Char.ofNat 10]).takeWhile (fun c => c ≠ Char.ofNat 10) = l := by
    rw [List.takeWhile_append_of_pos
      (fun a ha => by
        simp only [decide_eq_true_eq]
        intro hEq
        exact hnl (hEq ▸ ha))]
    rw [List.takeWhile_cons_of_neg (by simp)]
    simp
  rw [htake]
  unfold dropCR
  rw [if_neg hcr]


theorem getLast?_append_of_ne_nil (x y : List Char) (hy : y ≠ []) :
    (x ++ y).getLast? = y.getLast? := by
  rw [List.getLast?_append]
  cases hg : y.getLast? with
  | none => exact absurd (List.getLast?_eq_none_iff.mp hg) hy
  | some b => rfl

theorem getLast?_cons_of_ne_nil (c : Char) (y : List Char) (hy : y ≠ []) :
    (c :: y).getLast? = y.getLast? := by
  have h := getLast?_append_of_ne_nil [c] y hy
  simpa using h

theorem natDigits_getLast (n : Nat) :
    ∃ d, (natDigits n).getLast? = some d ∧ isDigitC d = true := by
  cases hg : (natDigits n).getLast? with
  | none => exact absurd (List.getLast?_eq_none_iff.mp hg) (natDigits_ne_nil n)
  | some d =>
    refine ⟨d, rfl, ?_⟩
    exact natDigits_all_digit n d (List.mem_of_mem_getLast? (by rw [hg]; rfl))


/-! ## Arithmetic bridge between the formula and the exact ceiling -/

theorem ceil_eq_formula (s B : Nat) (hB : 0 < B) : (s + B - 1) / B = ceilSpec s B := by
  obtain hdm := Nat.div_add_mod s B
  have hr : s % B < B := Nat.mod_lt _ hB
  by_cases h : s % B = 0
  · have h1 : s + B - 1 = B * (s / B) + (B - 1) := by omega
    have h2 : (B - 1) / B = 0 := Nat.div_eq_of_lt (by omega)
    rw [h1, Nat.mul_add_div hB, h2]
    simp [ceilSpec, h]
  · have hq : B * (s / B + 1) = B * (s / B) + B := by ring
    have h1 : s + B - 1 = B * (s / B + 1) + (s % B - 1) := by omega
    have h2 : (s % B - 1) / B = 0 := Nat.div_eq_of_lt (by omega)
    rw [h1, Nat.mul_add_div hB, h2]
    simp [ceilSpec, h]

theorem totalBlocksGo_eq_ceil (size blocksize : Nat) (hB : 0 < blocksize)
    (hno : size + blocksize - 1 < 2 ^ 64) :
    totalBlocksGo size blocksize = ceilSpec size blocksize := by
  unfold totalBlocksGo
  rw [Nat.mod_eq_of_lt hno]
  exact ceil_eq_formula size blocksize hB

theorem ceilSpec_eq_zero_iff (r B : Nat) (hB : 0 < B) : ceilSpec r B = 0 ↔ r = 0 := by
  obtain hdm := Nat.div_add_mod r B
  unfold ceilSpec
  by_cases h : r % B = 0
  · simp only [h, if_true]
    constructor
    · intro h0
      have hq : r / B = 0 := by omega
      rw [hq, Nat.mul_zero] at hdm
      omega
    · intro h0
      subst h0
      simp
  · simp only [h, if_false]
    constructor
    · intro h0
      exact absurd h0 (Nat.succ_ne_zero _)
    · intro h0
      subst h0
      simp at h

theorem ceilSpec_succ (r B : Nat) (hB : 0 < B) (hr : 0 < r) :
    ceilSpec r B = ceilSpec (r - B) B + 1 := by
  by_cases hle : B ≤ r
  · rw [← ceil_eq_formula _ _ hB, ← ceil_eq_formula _ _ hB]
    have h1 : r + B - 1 = (r - B + B - 1) + B := by omega
    rw [h1, Nat.add_div_right _ hB]
  · have h0 : r - B = 0 := by omega
    rw [h0]
    have hr0 : r ≠ 0 := by omega
    have h1 : r / B = 0 := Nat.div_eq_of_lt (by omega)
    have h2 : r % B = r := Nat.mod_eq_of_lt (by omega)
    simp [ceilSpec, h1, h2, hr0]

theorem ceilSpec_pred_mul_lt (S B : Nat) (hB : 0 < B) (hS : 0 < S) :
    (ceilSpec S B - 1) * B < S := by
  obtain hdm := Nat.div_add_mod S B
  unfold ceilSpec
  by_cases h : S % B = 0
  · simp only [h, if_true, Nat.add_zero]
    have hsub : (S / B - 1) * B = B * (S / B) - B := by
      rw [Nat.sub_mul, Nat.one_mul, Nat.mul_comm]
    rw [hsub]
    omega
  · simp only [h, if_false, Nat.add_sub_cancel]
    have hmul : S / B * B = B * (S / B) := Nat.mul_comm _ _
    rw [hmul]
    omega

theorem ceilSpec_sub_mul (S B : Nat) (hB : 0 < B) :
    ∀ i, i ≤ ceilSpec S B → ceilSpec S B - i = ceilSpec (S - i * B) B := by
  intro i
  induction i with
  | zero => intro _; simp
  | succ i ih =>
    intro hi
    have hi0 : i ≤ ceilSpec S B := by omega
    have hS0 : 0 < S := by
      rcases Nat.eq_zero_or_pos S with h0 | h0
      · exfalso
        have : ceilSpec S B = 0 := (ceilSpec_eq_zero_iff S B hB).mpr h0
        omega
      · exact h0
    have hib : i * B < S := by
      have h1 : i ≤ ceilSpec S B - 1 := by omega
      have h2 : i * B ≤ (ceilSpec S B - 1) * B := Nat.mul_le_mul_right _ h1
      exact Nat.lt_of_le_of_lt h2 (ceilSpec_pred_mul_lt S B hB hS0)
    have hrpos : 0 < S - i * B := by omega
    have hsucc : ceilSpec (S - i * B) B = ceilSpec (S - i * B - B) B + 1 :=
      ceilSpec_succ _ _ hB hrpos
    have hmul : (i + 1) * B = i * B + B := by ring
    have heq : S - (i + 1) * B = S - i * B - B := by omega
    rw [heq]
    omega

theorem be64_length (i : Nat) : (be64 i).length = 8 := rfl

theorem take8_be64 (i : Nat) (c : List Nat) : (be64 i ++ c).take 8 = be64 i := by
  simp [be64]

theorem drop8_be64 (i : Nat) (c : List Nat) : (be64 i ++ c).drop 8 = c := by
  simp [be64]

/-- The shared block loop, run with exactly the fuel the remaining
bytes require, emits one datagram per remaining block k — the
big-endian header of idx + k followed by the k-th remaining chunk —
marks the interval of streamed indices sent, and leaves the position at
the end of the file. -/
theorem sendLoop_complete (B : Nat) (hB : 0 < B) (file : List Nat) :
    ∀ T pos idx sent, T = ceilSpec (file.length - pos) B →
      sendLoop B file pos idx sent T =
        ((List.range T).map
            (fun k => be64 (idx + k) ++ ((file.drop (pos + k * B)).take B)),
          sent ∪ Finset.Ico idx (idx + T),
          pos + (file.length - pos)) := by
  intro T
  induction T with
  | zero =>
    intro pos idx sent hT
    have h0 : file.length - pos = 0 := (ceilSpec_eq_zero_iff _ _ hB).mp hT.symm
    simp [sendLoop, h0]
  | succ T ih =>
    intro pos idx sent hT
    have hrem : 0 < file.length - pos := by
      rcases Nat.eq_zero_or_pos (file.length - pos) with h0 | h0
      · exfalso
        have : ceilSpec (file.length - pos) B = 0 := (ceilSpec_eq_zero_iff _ _ hB).mpr h0
        omega
      · exact h0
    have hchunk : ((file.drop pos).take B).length = min B (file.length - pos) := by
      simp [List.length_take, List.length_drop]
    have hne : ¬ ((file.drop pos).take B).length = 0 := by
      rw [hchunk]
      omega
    simp only [sendLoop, hne, if_false]
    by_cases hBr : B ≤ file.length - pos
    · -- a full chunk of B bytes; the loop recurses with one block less
      have hlen : ((file.drop pos).take B).length = B := by omega
      have hT2 : T = ceilSpec (file.length - (pos + B)) B := by
        have hs : ceilSpec (file.length - pos) B =
            ceilSpec (file.length - pos - B) B + 1 := ceilSpec_succ _ _ hB hrem
        rw [show file.length - pos - B = file.length - (pos + B) from by omega] at hs
        omega
      rw [hlen, ih (pos + B) (idx + 1) (insert idx sent) hT2]
      refine Prod.ext ?_ (Prod.ext ?_ ?_)
      · -- the datagram lists agree
        show (be64 idx ++ (file.drop pos).take B) ::
            (List.range T).map
              (fun k => be64 (idx + 1 + k) ++ ((file.drop (pos + B + k * B)).take B)) =
          (List.range (T + 1)).map
            (fun k => be64 (idx + k) ++ ((file.drop (pos + k * B)).take B))
        rw [List.range_succ_eq_map, List.map_cons, List.map_map]
        refine congrArg₂ _ ?_ ?_
        · simp
        · refine List.map_congr_left ?_
          intro k _
          simp only [Function.comp_apply]
          have h1 : idx + 1 + k = idx + (k + 1) := by omega
          have h2 : pos + B + k * B = pos + (k + 1) * B := by ring
          rw [h1, h2]
      · -- the sent sets agree
        show insert idx sent ∪ Finset.Ico (idx + 1) (idx + 1 + T) =
          sent ∪ Finset.Ico idx (idx + (T + 1))
        ext j
        simp only [Finset.mem_union, Finset.mem_insert, Finset.mem_Ico]
        constructor
        · rintro ((rfl | hj) | hj)
          · right; omega
          · left; exact hj
          · right; omega
        · rintro (hj | hj)
          · left; right; exact hj
          · rcases Nat.eq_or_lt_of_le hj.1 with rfl | hlt
            · left; left; rfl
            · right; omega
      · -- the positions agree
        show pos + B + (file.length - (pos + B)) = pos + (file.length - pos)
        omega
    · -- the last, short chunk: the ceiling is one and the fuel below is dead
      have hlast : ((file.drop pos).take B).length = file.length - pos := by omega
      have hT0 : T = 0 := by
        have hs : ceilSpec (file.length - pos) B =
            ceilSpec (file.length - pos - B) B + 1 := ceilSpec_succ _ _ hB hrem
        have h0 : file.length - pos - B = 0 := by omega
        rw [h0] at hs
        have : ceilSpec 0 B = 0 := (ceilSpec_eq_zero_iff _ _ hB).mpr rfl
        omega
      subst hT0
      rw [hlast]
      refine Prod.ext ?_ (Prod.ext ?_ ?_)
      · show [be64 idx ++ (file.drop pos).take B] =
          (List.range 1).map (fun k => be64 (idx + k) ++ ((file.drop (pos + k * B)).take B))
        simp [List.range_succ]
      · show insert idx sent = sent ∪ Finset.Ico idx (idx + 1)
        ext j
        simp only [Finset.mem_union, Finset.mem_insert, Finset.mem_Ico]
        constructor
        · rintro (rfl | hj)
          · right; omega
          · left; exact hj
        · rintro (hj | hj)
          · right; exact hj
          · left; omega
      · show pos + (file.length - pos) = pos + (file.length - pos)
        rfl

/-- Every element of the sent set after a loop run was either sent
before or lies in the interval of indices the fuel allowed. -/
theorem sendLoop_sent_subset (B : Nat) (file : List Nat) :
    ∀ fuel pos idx sent, ∀ j ∈ (sendLoop B file pos idx sent fuel).2.1,
      j ∈ sent ∨ (idx ≤ j ∧ j < idx + fuel) := by
  intro fuel
  induction fuel with
  | zero =>
    intro pos idx sent j hj
    exact Or.inl hj
  | succ fuel ih =>
    intro pos idx sent j hj
    simp only [sendLoop] at hj
    by_cases hne : ((file.drop pos).take B).length = 0
    · rw [if_pos hne] at hj
      exact Or.inl hj
    · rw [if_neg hne] at hj
      have := ih (pos + ((file.drop pos).take B).length) (idx + 1) (insert idx sent) j hj
      rcases this with hs | hs
      · rcases Finset.mem_insert.mp hs with rfl | hs
        · right; omega
        · left; exact hs
      · right; omega

/-- The delete loop of restartFromBlock erases exactly the interval its
fuel spans. -/
theorem clearFrom_eq_sdiff :
    ∀ fuel, ∀ s : Finset Nat, ∀ a : Nat, clearFrom s a fuel = s \ Finset.Ico a (a + fuel) := by
  intro fuel
  induction fuel with
  | zero =>
    intro s a
    simp [clearFrom]
  | succ fuel ih =>
    intro s a
    show clearFrom (s.erase a) (a + 1) fuel = _
    rw [ih (s.erase a) (a + 1)]
    ext j
    simp only [Finset.mem_sdiff, Finset.mem_erase, Finset.mem_Ico]
    constructor
    · rintro ⟨⟨hne, hj⟩, hout⟩
      refine ⟨hj, ?_⟩
      omega
    · rintro ⟨hj, hout⟩
      refine ⟨⟨?_, hj⟩, ?_⟩ <;> omega

/-- Concatenating the successive B-byte chunks of a file, one per block
of the exact ceiling count, rebuilds the file. -/
theorem chunks_join (B : Nat) (hB : 0 < B) :
    ∀ n, ∀ file : List Nat, file.length = n →
      ((List.range (ceilSpec file.length B)).map (fun k => (file.drop (k * B)).take B)).flatten
        = file := by
  intro n
  induction n using Nat.strong_induction_on with
  | _ n ih =>
    intro file hlen
    rcases Nat.eq_zero_or_pos file.length with h0 | h0
    · have hf : file = [] := List.eq_nil_of_length_eq_zero h0
      subst hf
      simp [show ceilSpec 0 B = 0 from (ceilSpec_eq_zero_iff 0 B hB).mpr rfl]
    · have hsucc : ceilSpec file.length B = ceilSpec (file.length - B) B + 1 :=
        ceilSpec_succ _ _ hB h0
      have hlen2 : (file.drop B).length = file.length - B := by simp
      have hrest : ((List.range (ceilSpec (file.drop B).length B)).map
          (fun k => ((file.drop B).drop (k * B)).take B)).flatten = file.drop B :=
        ih (file.drop B).length (by omega) (file.drop B) rfl
      rw [hlen2] at hrest
      rw [hsucc, List.range_succ_eq_map, List.map_cons, List.flatten_cons, List.map_map]
      have hfun : ((fun k => (file.drop (k * B)).take B) ∘ Nat.succ) =
          (fun k => ((file.drop B).drop (k * B)).take B) := by
        funext k
        simp only [Function.comp_apply, List.drop_drop]
        have harith : k.succ * B = B + B * k := by
          rw [Nat.succ_mul]
          ring
        rw [harith, Nat.mul_comm B k]
      rw [hfun, hrest]
      simp

/-! ## Claim C1: one complete run of the streaming task -/

/-- C1 amended: for a served file of positive size S and block size
B > 0 whose sum S + B - 1 does not overflow uint64, a complete run of
the streaming task started by Get emits exactly ceil(S / B) datagrams;
the k-th datagram is the eight-byte big-endian header of k followed by
the k-th B-byte chunk, the headers enumerate 0, 1, ... in order, and
the concatenation of the payloads (each datagram beyond its first eight
bytes) is the file. -/
theorem C1_stream_run_amended (filename : List Char) (file : List Nat) (B : Nat)
    (hS : 0 < file.length) (hB : 0 < B) (hno : file.length + B - 1 < 2 ^ 64) :
    (startFileTransmission (newTransmissionState filename file B)).2 =
        (List.range (ceilSpec file.length B)).map
          (fun k => be64 k ++ ((file.drop (k * B)).take B)) ∧
      (startFileTransmission (newTransmissionState filename file B)).2.length =
        ceilSpec file.length B ∧
      ((startFileTransmission (newTransmissionState filename file B)).2.map
          (fun d => d.take 8)) = (List.range (ceilSpec file.length B)).map be64 ∧
      ((startFileTransmission (newTransmissionState filename file B)).2.map
          (fun d => d.drop 8)).flatten = file := by
  have hT : totalBlocksGo file.length B = ceilSpec file.length B :=
    totalBlocksGo_eq_ceil _ _ hB hno
  have hrun := sendLoop_complete B hB file (ceilSpec file.length B) 0 0 ∅ (by simp)
  have hds : (startFileTransmission (newTransmissionState filename file B)).2 =
      (List.range (ceilSpec file.length B)).map
        (fun k => be64 k ++ ((file.drop (k * B)).take B)) := by
    show (sendLoop B file 0 0 ∅ (totalBlocksGo file.length B)).1 = _
    rw [hT, hrun]
    simp
  refine ⟨hds, ?_, ?_, ?_⟩
  · rw [hds]
    simp
  · rw [hds, List.map_map]
    refine List.map_congr_left ?_
    intro k _
    simp [take8_be64]
  · rw [hds, List.map_map]
    have hfun : ((fun d => List.drop 8 d) ∘ fun k => be64 k ++ ((file.drop (k * B)).take B)) =
        (fun k => (file.drop (k * B)).take B) := by
      funext k
      simp [drop8_be64]
    rw [hfun]
    exact chunks_join B hB file.length file rfl

theorem C1_stream_run_witness :
    (0 < ([10, 11, 12] : List Nat).length ∧ 0 < 2 ∧
        ([10, 11, 12] : List Nat).length + 2 - 1 < 2 ^ 64) ∧
      (startFileTransmission (newTransmissionState ['f'] [10, 11, 12] 2)).2.length =
        ceilSpec ([10, 11, 12] : List Nat).length 2 :=
  ⟨⟨by decide, by decide, by decide⟩,
    (C1_stream_run_amended ['f'] [10, 11, 12] 2 (by decide) (by decide) (by decide)).2.1⟩

theorem clearFrom_subset (fuel : Nat) (s : Finset Nat) (a : Nat) :
    ∀ j ∈ clearFrom s a fuel, j ∈ s := by
  intro j hj
  rw [clearFrom_eq_sdiff] at hj
  exact (Finset.mem_sdiff.mp hj).1

/-! ## Claim C7: REST with an in-range index -/

/-- C7: on a consistent active transmission (block count equal to the
exact ceiling, no uint64 wrap, sent set within range) and an in-range
restart index i, restartFromBlock succeeds and returns the datagrams of
blocks i through total - 1 in ascending order, each framed as the
eight-byte big-endian index followed by that block of the file; the
resulting sent set holds exactly the old indices below i plus every
index from i through total - 1 (all indices at or above i were cleared
first, then the streamed ones were marked sent). -/
theorem C7_restart (ts : TransState) (i : Nat)
    (hB : 0 < ts.blockSize)
    (hT : ts.totalBlocks = ceilSpec ts.file.length ts.blockSize)
    (hno : ts.file.length + ts.blockSize - 1 < 2 ^ 64)
    (hinv : ∀ j ∈ ts.sentBlocks, j < ts.totalBlocks)
    (hi : i < ts.totalBlocks) :
    (restartFromBlock ts i).2 =
        .ok ((List.range (ts.totalBlocks - i)).map
          (fun k => be64 (i + k) ++
            ((ts.file.drop ((i + k) * ts.blockSize)).take ts.blockSize))) ∧
      ∀ j, j ∈ (restartFromBlock ts i).1.sentBlocks ↔
        ((j ∈ ts.sentBlocks ∧ j < i) ∨ (i ≤ j ∧ j < ts.totalBlocks)) := by
  have hS0 : 0 < ts.file.length := by
    rcases Nat.eq_zero_or_pos ts.file.length with h0 | h0
    · exfalso
      rw [(ceilSpec_eq_zero_iff _ _ hB).mpr h0] at hT
      omega
    · exact h0
  have hiB : i * ts.blockSize < 2 ^ 64 := by
    have h1 : i ≤ ceilSpec ts.file.length ts.blockSize - 1 := by omega
    have h2 : i * ts.blockSize ≤ (ceilSpec ts.file.length ts.blockSize - 1) * ts.blockSize :=
      Nat.mul_le_mul_right _ h1
    have h3 := ceilSpec_pred_mul_lt ts.file.length ts.blockSize hB hS0
    omega
  have hoffset : i * ts.blockSize % 2 ^ 64 = i * ts.blockSize := Nat.mod_eq_of_lt hiB
  have hfuel : ts.totalBlocks - i = ceilSpec (ts.file.length - i * ts.blockSize) ts.blockSize := by
    rw [hT]
    exact ceilSpec_sub_mul ts.file.length ts.blockSize hB i (by omega)
  have hrun := sendLoop_complete ts.blockSize hB ts.file (ts.totalBlocks - i)
    (i * ts.blockSize) i (clearFrom ts.sentBlocks i (ts.totalBlocks - i)) hfuel
  have hnot : ¬ ts.totalBlocks ≤ i := by omega
  have heq : restartFromBlock ts i =
      ({ ts with
          sentBlocks := clearFrom ts.sentBlocks i (ts.totalBlocks - i) ∪
            Finset.Ico i (i + (ts.totalBlocks - i)),
          pos := i * ts.blockSize + (ts.file.length - i * ts.blockSize) },
        .ok ((List.range (ts.totalBlocks - i)).map
          (fun k => be64 (i + k) ++
            ((ts.file.drop (i * ts.blockSize + k * ts.blockSize)).take ts.blockSize)))) := by
    unfold restartFromBlock
    rw [if_neg hnot, hoffset]
    simp only [hrun]
  constructor
  · rw [heq]
    show Except.ok _ = Except.ok _
    refine congrArg _ ?_
    refine List.map_congr_left ?_
    intro k _
    have harith : i * ts.blockSize + k * ts.blockSize = (i + k) * ts.blockSize := by ring
    rw [harith]
  · intro j
    rw [heq]
    show j ∈ clearFrom ts.sentBlocks i (ts.totalBlocks - i) ∪
        Finset.Ico i (i + (ts.totalBlocks - i)) ↔ _
    rw [clearFrom_eq_sdiff]
    have hup : i + (ts.totalBlocks - i) = ts.totalBlocks := by omega
    rw [hup]
    simp only [Finset.mem_union, Finset.mem_sdiff, Finset.mem_Ico]
    constructor
    · rintro (⟨hjs, hout⟩ | hin)
      · have := hinv j hjs
        left
        exact ⟨hjs, by omega⟩
      · right
        exact hin
    · rintro (⟨hjs, hlt⟩ | hin)
      · left
        exact ⟨hjs, by omega⟩
      · right
        exact hin

theorem C7_restart_witness :
    (0 < sampleState.blockSize ∧
        sampleState.totalBlocks = ceilSpec sampleState.file.length sampleState.blockSize ∧
        sampleState.file.length + sampleState.blockSize - 1 < 2 ^ 64 ∧
        (∀ j ∈ sampleState.sentBlocks, j < sampleState.totalBlocks) ∧
        8 < sampleState.totalBlocks) ∧
      (9 ∈ (restartFromBlock sampleState 8).1.sentBlocks ↔
        ((9 ∈ sampleState.sentBlocks ∧ 9 < 8) ∨ (8 ≤ 9 ∧ 9 < sampleState.totalBlocks))) := by
  constructor
  · refine ⟨?_, ?_, ?_, ?_, ?_⟩ <;> decide
  · exact (C7_restart sampleState 8 (by decide) (by decide) (by decide) (by decide)
      (by decide)).2 9

/-! ## Claim C10: the sent-set invariant -/

theorem retransmitBlock_fst_totalBlocks (ts : TransState) (i : Nat) :
    (retransmitBlock ts i).1.totalBlocks = ts.totalBlocks := by
  unfold retransmitBlock
  by_cases h : ts.totalBlocks ≤ i
  · rw [if_pos h]
  · rw [if_neg h]
    by_cases hc : ((ts.file.drop (i * ts.blockSize % 2 ^ 64)).take ts.blockSize).length = 0
    · rw [if_pos hc]
    · rw [if_neg hc]

theorem retransmitBlock_fst_sent (ts : TransState) (i : Nat) :
    (retransmitBlock ts i).1.sentBlocks = ts.sentBlocks ∨
      ((retransmitBlock ts i).1.sentBlocks = insert i ts.sentBlocks ∧
        i < ts.totalBlocks) := by
  unfold retransmitBlock
  by_cases h : ts.totalBlocks ≤ i
  · left
    rw [if_pos h]
  · by_cases hc : ((ts.file.drop (i * ts.blockSize % 2 ^ 64)).take ts.blockSize).length = 0
    · left
      rw [if_neg h, if_pos hc]
    · right
      refine ⟨?_, by omega⟩
      rw [if_neg h, if_neg hc]

theorem restartFromBlock_fst_totalBlocks (ts : TransState) (i : Nat) :
    (restartFromBlock ts i).1.totalBlocks = ts.totalBlocks := by
  unfold restartFromBlock
  by_cases h : ts.totalBlocks ≤ i
  · rw [if_pos h]
  · rw [if_neg h]

/-- C10: every index recorded in sent_blocks stays below total_blocks —
it holds of a freshly created state and is preserved by the streaming
task, by retransmitBlock, and by restartFromBlock. -/
theorem C10_sent_blocks_invariant (ts : TransState) (i : Nat)
    (fn : List Char) (file : List Nat) (B : Nat) :
    (∀ j ∈ (newTransmissionState fn file B).sentBlocks,
        j < (newTransmissionState fn file B).totalBlocks) ∧
      ((∀ j ∈ ts.sentBlocks, j < ts.totalBlocks) →
        ∀ j ∈ (startFileTransmission ts).1.sentBlocks,
          j < (startFileTransmission ts).1.totalBlocks) ∧
      ((∀ j ∈ ts.sentBlocks, j < ts.totalBlocks) →
        ∀ j ∈ (retransmitBlock ts i).1.sentBlocks,
          j < (retransmitBlock ts i).1.totalBlocks) ∧
      ((∀ j ∈ ts.sentBlocks, j < ts.totalBlocks) →
        ∀ j ∈ (restartFromBlock ts i).1.sentBlocks,
          j < (restartFromBlock ts i).1.totalBlocks) := by
  refine ⟨?_, ?_, ?_, ?_⟩
  · intro j hj
    simp [newTransmissionState] at hj
  · intro hinv j hj
    have hj2 : j ∈ (sendLoop ts.blockSize ts.file ts.pos 0 ts.sentBlocks ts.totalBlocks).2.1 :=
      hj
    show j < ts.totalBlocks
    rcases sendLoop_sent_subset ts.blockSize ts.file ts.totalBlocks ts.pos 0 ts.sentBlocks
        j hj2 with hs | hs
    · exact hinv j hs
    · omega
  · intro hinv j hj
    rw [retransmitBlock_fst_totalBlocks]
    rcases retransmitBlock_fst_sent ts i with hs | ⟨hs, hlt⟩
    · rw [hs] at hj
      exact hinv j hj
    · rw [hs] at hj
      rcases Finset.mem_insert.mp hj with rfl | hj2
      · exact hlt
      · exact hinv j hj2
  · intro hinv j hj
    rw [restartFromBlock_fst_totalBlocks]
    unfold restartFromBlock at hj
    by_cases hcase : ts.totalBlocks ≤ i
    · rw [if_pos hcase] at hj
      exact hinv j hj
    · rw [if_neg hcase] at hj
      have hj2 : j ∈ (sendLoop ts.blockSize ts.file (i * ts.blockSize % 2 ^ 64) i
          (clearFrom ts.sentBlocks i (ts.totalBlocks - i)) (ts.totalBlocks - i)).2.1 := hj
      rcases sendLoop_sent_subset _ _ _ _ _ _ j hj2 with hs | hs
      · exact hinv j (clearFrom_subset _ _ _ j hs)
      · omega

theorem C10_sent_blocks_invariant_witness :
    ((∀ j ∈ sampleState.sentBlocks, j < sampleState.totalBlocks) ∧
        ∀ j ∈ (newTransmissionState ['f'] [1, 2, 3] 2).sentBlocks,
          j < (newTransmissionState ['f'] [1, 2, 3] 2).totalBlocks) ∧
      ((∀ j ∈ sampleState.sentBlocks, j < sampleState.totalBlocks) →
        ∀ j ∈ (retransmitBlock sampleState 5).1.sentBlocks,
          j < (retransmitBlock sampleState 5).1.totalBlocks) :=
  ⟨⟨by decide, (C10_sent_blocks_invariant sampleState 5 ['f'] [1, 2, 3] 2).1⟩,
    (C10_sent_blocks_invariant sampleState 5 ['f'] [1, 2, 3] 2).2.2.1⟩

/-! ## Claim C9: the stored block count versus the exact ceiling -/

/-- C9 counterexample: at the in-range uint64 inputs size = 2 ^ 63 - 1
(a legal stat size) and blocksize = 2 ^ 64 - 1 (a legal blocksize from
a validated Get), the uint64 formula of createTransmissionState wraps
and yields 0 while the exact ceiling is 1, so the claim that the two
agree for all in-range inputs is false. -/
theorem C9_total_blocks_counterexample :
    totalBlocksGo (2 ^ 63 - 1) (2 ^ 64 - 1) = 0 ∧
      ceilSpec (2 ^ 63 - 1) (2 ^ 64 - 1) = 1 := by
  exact ⟨by decide, by decide⟩

/-- C9 amended: whenever size + blocksize - 1 does not overflow uint64,
the total_blocks stored by createTransmissionState equals the exact
ceiling of size / blocksize computed in unbounded arithmetic; and
whenever the sum does overflow (at uint64-representable size and
blocksize), the stored value is strictly smaller than the exact
ceiling. -/
theorem C9_total_blocks_amended :
    (∀ size blocksize, 0 < blocksize → size + blocksize - 1 < 2 ^ 64 →
        totalBlocksGo size blocksize = ceilSpec size blocksize) ∧
    (∀ size blocksize, 0 < blocksize → size < 2 ^ 64 → blocksize < 2 ^ 64 →
        2 ^ 64 ≤ size + blocksize - 1 →
        totalBlocksGo size blocksize < ceilSpec size blocksize) := by
  constructor
  · exact totalBlocksGo_eq_ceil
  · intro size bs hB hs hb hof
    unfold totalBlocksGo
    have hlt : size + bs - 1 - 2 ^ 64 < 2 ^ 64 := by omega
    have hmod : (size + bs - 1) % 2 ^ 64 = size + bs - 1 - 2 ^ 64 := by
      rw [Nat.mod_eq_sub_mod hof, Nat.mod_eq_of_lt hlt]
    rw [hmod, ← ceil_eq_formula size bs hB]
    have h1 : size + bs - 1 - 2 ^ 64 + bs ≤ size + bs - 1 := by omega
    have h2 : (size + bs - 1 - 2 ^ 64 + bs) / bs ≤ (size + bs - 1) / bs :=
      Nat.div_le_div_right h1
    have h3 : (size + bs - 1 - 2 ^ 64 + bs) / bs = (size + bs - 1 - 2 ^ 64) / bs + 1 :=
      Nat.add_div_right _ hB
    omega

theorem C9_total_blocks_witness :
    (0 < 65536 ∧ 1000000 + 65536 - 1 < 2 ^ 64 ∧
      totalBlocksGo 1000000 65536 = ceilSpec 1000000 65536) ∧
    (2 ^ 64 ≤ 2 ^ 63 - 1 + (2 ^ 64 - 1) - 1 ∧
      totalBlocksGo (2 ^ 63 - 1) (2 ^ 64 - 1) < ceilSpec (2 ^ 63 - 1) (2 ^ 64 - 1)) := by
  refine ⟨⟨by decide, by decide, ?_⟩, by decide, ?_⟩
  · exact C9_total_blocks_amended.1 1000000 65536 (by decide) (by decide)
  · exact C9_total_blocks_amended.2 (2 ^ 63 - 1) (2 ^ 64 - 1) (by decide) (by decide)
      (by decide) (by decide)

/-! ## Claim C8: out-of-range RETR and REST leave the state untouched -/

/-- C8: for every transmission state and every block index at or above
total_blocks, retransmitBlock and restartFromBlock both return the
out-of-range error, the state is returned exactly as it was (sent set,
file position and every other field unchanged), and no datagram is
produced (the error branch carries none). -/
theorem C8_out_of_range (ts : TransState) (i : Nat) (h : ts.totalBlocks ≤ i) :
    retransmitBlock ts i = (ts, .error (.outOfRange i ts.totalBlocks)) ∧
      restartFromBlock ts i = (ts, .error (.outOfRange i ts.totalBlocks)) := by
  constructor
  · unfold retransmitBlock
    rw [if_pos h]
  · unfold restartFromBlock
    rw [if_pos h]

theorem C8_out_of_range_witness :
    sampleState.totalBlocks ≤ 12 ∧
      (retransmitBlock sampleState 12 =
          (sampleState, .error (.outOfRange 12 sampleState.totalBlocks)) ∧
        restartFromBlock sampleState 12 =
          (sampleState, .error (.outOfRange 12 sampleState.totalBlocks))) :=
  ⟨by decide, C8_out_of_range sampleState 12 (by decide)⟩

/-! ## Claim C3: top-level dispatch of the six instructions -/

/-- C3 (code bug): the minimal UnmarshalCommand of commands.go rejects
a well-formed RETR line as an unknown command, while the rich decoder
of part_000 — the behaviour the spec and the package tests demand —
decodes all six well-formed instruction lines successfully. -/
theorem C3_dispatch_regression :
    UnmarshalCommandMin ['R', 'E', 'T', 'R', ' ', '0', Char.ofNat 10] = .error .genericE ∧
      UnmarshalCommand ['G', 'E', 'T', ' ', 'f', ' ', '1', ' ', '1', Char.ofNat 10] =
        .ok (.get ['f'] 1 1) ∧
      UnmarshalCommand ['O', 'K', ' ', '5', Char.ofNat 10] = .ok (.ok 5) ∧
      UnmarshalCommand ['R', 'E', 'T', 'R', ' ', '0', Char.ofNat 10] = .ok (.retr 0) ∧
      UnmarshalCommand ['R', 'E', 'S', 'T', ' ', '0', Char.ofNat 10] = .ok (.rest 0) ∧
      UnmarshalCommand ['E', 'R', 'R', ' ', 'x', Char.ofNat 10] = .ok (.err ['x']) ∧
      UnmarshalCommand ['D', 'O', 'N', 'E', Char.ofNat 10] = .ok .done := by
  refine ⟨?_, ?_, ?_, ?_, ?_, ?_, ?_⟩ <;> decide

/-! ## Claim C4: the DONE variant decoder -/

/-- C4 (code bug): the DoneCommand decoder of commands.go compares the
parsed instruction against ERR, so it rejects the well-formed DONE line
and accepts an ERR token, while the part_000 decoder — the behaviour
the claim states — accepts exactly DONE. -/
theorem C4_done_decoder_bug :
    doneUnmarshalBinaryMin ['D', 'O', 'N', 'E', Char.ofNat 10] = .error .genericE ∧
      doneUnmarshalBinaryMin ['E', 'R', 'R', Char.ofNat 10] = .ok () ∧
      doneUnmarshalBinary ['D', 'O', 'N', 'E', Char.ofNat 10] = .ok .done ∧
      doneUnmarshalBinary ['E', 'R', 'R', Char.ofNat 10] = .error .protocolE := by
  refine ⟨?_, ?_, ?_, ?_⟩ <;> decide

/-! ## Claim C1 counterexample: uint64 wrap in the block count -/

/-- C1 counterexample: a served file of two bytes with the legal
blocksize 2 ^ 64 - 1 makes the uint64 block count wrap to zero, so a
complete run of the streaming task emits no datagram although the
ceiling says one datagram is due. -/
theorem C1_stream_run_counterexample :
    0 < ([7, 7] : List Nat).length ∧ 0 < 2 ^ 64 - 1 ∧
      (startFileTransmission (newTransmissionState ['t'] [7, 7] (2 ^ 64 - 1))).2.length = 0 ∧
      ceilSpec ([7, 7] : List Nat).length (2 ^ 64 - 1) = 1 := by
  refine ⟨by decide, by decide, by decide, by decide⟩

/-! ## Claim C2 counterexample: ERR trims its message -/

/-- C2 counterexample: the Err command whose message is a space
followed by x lies within the declared bounds (non-empty, single
line), but decoding its encoding yields the trimmed message, not the
original command. -/
theorem C2_roundtrip_counterexample :
    UnmarshalCommand (MarshalBinary (Cmd.err [' ', 'x'])) = .ok (.err ['x']) ∧
      Cmd.err ['x'] ≠ Cmd.err [' ', 'x'] ∧
      ([' ', 'x'] : List Char) ≠ [] ∧ Char.ofNat 10 ∉ ([' ', 'x'] : List Char) := by
  refine ⟨by decide, by decide, by decide, by decide⟩

/-! ## Claim C5 counterexample: category of the empty ERR message -/

/-- C5 counterexample: the encoding of an Err command with empty
message decodes to an error raised by newProtocolError (the trimmed
line fails the ERR-and-space head check before the validation branch is
reached), which is neither the parse nor the validation category the
claim allows. -/
theorem C5_validation_counterexample :
    UnmarshalCommand (MarshalBinary (Cmd.err [])) = .error .protocolE ∧
      CmdError.protocolE ≠ .parseE ∧ CmdError.protocolE ≠ .validationE := by
  refine ⟨by decide, by decide, by decide⟩

/-! ## Claim C6 counterexample: no ERR for a failed UDP dial -/

/-- C6 counterexample: when the UDP dial fails, the client has received
only the OK reply — no ERR ever reaches the TCP channel, because the
goroutine wrapping startFileTransmission merely logs the error — even
though the file is closed and no state is registered. -/
theorem C6_get_failure_counterexample :
    (handleGetRun envDialFail (fun _ => none) ipA ['t'] 10).replies = [Reply.okReply 20] ∧
      Reply.errReply ∉ (handleGetRun envDialFail (fun _ => none) ipA ['t'] 10).replies ∧
      (handleGetRun envDialFail (fun _ => none) ipA ['t'] 10).registry ipA = none ∧
      (handleGetRun envDialFail (fun _ => none) ipA ['t'] 10).fileClosed = true := by
  refine ⟨rfl, by decide, rfl, rfl⟩

end GoTsunami
namespace GoTsunami

theorem head_dropWhile_false (p : Char → Bool) (l : List Char) (a : Char)
    (h : (l.dropWhile p).head? = some a) : p a = false := by
  induction l with
  | nil => simp at h
  | cons c cs ih =>
    by_cases hc : p c
    · rw [List.dropWhile_cons_of_pos hc] at h
      exact ih h
    · rw [List.dropWhile_cons_of_neg hc] at h
      injection h with h
      subst h
      exact Bool.eq_false_iff.mpr hc

theorem head?_append_of_ne_nil (x w : List Char) (hx : x ≠ []) :
    (x ++ w).head? = x.head? := by
  cases x with
  | nil => exact absurd rfl hx
  | cons a t => rfl

theorem goTrimLeft_decomp (t : List Char) :
    ∃ w, t = w ++ goTrimLeft t ∧ ∀ c ∈ w, goIsSpace c = true := by
  refine ⟨t.takeWhile goIsSpace, (List.takeWhile_append_dropWhile _ _).symm, ?_⟩
  intro c hc
  exact List.mem_takeWhile_imp hc

theorem goTrimRight_decomp (t : List Char) :
    ∃ w, t = goTrimRight t ++ w ∧ ∀ c ∈ w, goIsSpace c = true := by
  refine ⟨(t.reverse.takeWhile goIsSpace).reverse, ?_, ?_⟩
  · calc t = t.reverse.reverse := (List.reverse_reverse t).symm
    _ = ((t.reverse.takeWhile goIsSpace) ++ (t.reverse.dropWhile goIsSpace)).reverse := by
        rw [List.takeWhile_append_dropWhile]
    _ = goTrimRight t ++ (t.reverse.takeWhile goIsSpace).reverse := by
        rw [List.reverse_append]
        rfl
  · intro c hc
    rw [List.mem_reverse] at hc
    exact List.mem_takeWhile_imp hc

theorem goTrim_eq_self_facts (s : List Char) (h : goTrim s = s) :
    goTrimLeft s = s ∧ goTrimRight s = s := by
  obtain ⟨w1, hw1, _⟩ := goTrimLeft_decomp s
  have l1 : (goTrimRight (goTrimLeft s)).length ≤ (goTrimLeft s).length := by
    unfold goTrimRight
    rw [List.length_reverse]
    calc (List.dropWhile goIsSpace (goTrimLeft s).reverse).length
        ≤ (goTrimLeft s).reverse.length := length_dropWhile_le _ _
      _ = (goTrimLeft s).length := List.length_reverse _
  have l2 : (goTrimLeft s).length ≤ s.length := length_dropWhile_le _ _
  have l3 : (goTrim s).length = s.length := by rw [h]
  have l4 : (goTrimLeft s).length = s.length := by
    unfold goTrim at l3
    omega
  have hlenw : w1.length + (goTrimLeft s).length = s.length := by
    have hcl := congrArg List.length hw1
    simp only [List.length_append] at hcl
    omega
  have hw1nil : w1 = [] := List.eq_nil_of_length_eq_zero (by omega)
  have h5 : goTrimLeft s = s := by
    have hx := hw1
    rw [hw1nil, List.nil_append] at hx
    exact hx.symm
  refine ⟨h5, ?_⟩
  unfold goTrim at h
  rw [h5] at h
  exact h

theorem dropWhile_self_head (p : Char → Bool) (l : List Char) (h : l.dropWhile p = l) :
    ∀ a, l.head? = some a → p a = false := by
  intro a ha
  cases l with
  | nil => simp at ha
  | cons c cs =>
    injection ha with ha
    by_cases hc : p c
    · rw [List.dropWhile_cons_of_pos hc] at h
      have hcl := congrArg List.length h
      have hle := length_dropWhile_le p cs
      simp only [List.length_cons] at hcl
      omega
    · exact ha ▸ Bool.eq_false_iff.mpr hc

theorem goTrim_self_head (s : List Char) (h : goTrim s = s) :
    ∀ a, s.head? = some a → goIsSpace a = false := by
  intro a ha
  exact dropWhile_self_head _ _ (goTrim_eq_self_facts s h).1 a ha

theorem goTrim_self_last (s : List Char) (h : goTrim s = s) :
    ∀ a, s.getLast? = some a → goIsSpace a = false := by
  intro a ha
  have h2 := (goTrim_eq_self_facts s h).2
  have h3 : s.reverse.dropWhile goIsSpace = s.reverse := by
    have hcr := congrArg List.reverse h2
    unfold goTrimRight at hcr
    rwa [List.reverse_reverse] at hcr
  exact dropWhile_self_head _ _ h3 a (by rwa [List.head?_reverse])

theorem goTrimRight_last (t : List Char) :
    ∀ a, (goTrimRight t).getLast? = some a → goIsSpace a = false := by
  intro a ha
  unfold goTrimRight at ha
  rw [List.getLast?_reverse] at ha
  exact head_dropWhile_false _ _ _ ha

theorem goTrim_head (s : List Char) :
    ∀ a, (goTrim s).head? = some a → goIsSpace a = false := by
  intro a ha
  obtain ⟨w, hw, _⟩ := goTrimRight_decomp (goTrimLeft s)
  have hne : goTrimRight (goTrimLeft s) ≠ [] := by
    intro h0
    unfold goTrim at ha
    rw [h0] at ha
    simp at ha
  have h1 : (goTrimRight (goTrimLeft s)).head? = (goTrimLeft s).head? := by
    conv_rhs => rw [hw]
    rw [head?_append_of_ne_nil _ _ hne]
  unfold goTrim at ha
  rw [h1] at ha
  exact head_dropWhile_false _ _ _ ha

theorem goTrim_idem (s : List Char) : goTrim (goTrim s) = goTrim s := by
  show goTrimRight (goTrimLeft (goTrim s)) = goTrim s
  rw [goTrimLeft_clean (goTrim s) (goTrim_head s)]
  exact goTrimRight_clean _ (fun a ha => goTrimRight_last (goTrimLeft s) a ha)

theorem goTrim_nil_all_space (x : List Char) (h : goTrim x = []) :
    ∀ c ∈ x, goIsSpace c = true := by
  obtain ⟨w1, hw1, hsp1⟩ := goTrimLeft_decomp x
  obtain ⟨w2, hw2, hsp2⟩ := goTrimRight_decomp (goTrimLeft x)
  intro c hc
  unfold goTrim at h
  rw [h, List.nil_append] at hw2
  rw [hw2] at hw1
  rw [hw1] at hc
  rcases List.mem_append.mp hc with hI | hI
  · exact hsp1 c hI
  · exact hsp2 c hI

end GoTsunami
namespace GoTsunami

theorem UnmarshalCommand_get_canonical (fn : List Char) (bs p : Nat) (hfn : fn ≠ [])
    (hfns : ∀ c ∈ fn, goIsSpace c = false) (hbs64 : bs < 2 ^ 64) (hp64 : p < 2 ^ 64) :
    UnmarshalCommand (MarshalBinary (.get fn bs p)) =
      if bs = 0 then .error .validationE
      else if p = 0 ∨ p > 65535 then .error .validationE
      else .ok (.get fn bs p) := by
  obtain ⟨d, hd, hdig⟩ := natDigits_getLast p
  have hdata : MarshalBinary (.get fn bs p) =
      ('G' :: 'E' :: 'T' :: ' ' :: (fn ++ ' ' :: (natDigits bs ++ ' ' :: natDigits p))) ++
        [Char.ofNat 10] := by
    simp [MarshalBinary]
  have hhead : ∀ a,
      ('G' :: 'E' :: 'T' :: ' ' ::
        (fn ++ ' ' :: (natDigits bs ++ ' ' :: natDigits p))).head? = some a →
        goIsSpace a = false := by
    intro a ha
    injection ha with ha
    subst ha
    decide
  have hCend : 'G' :: 'E' :: 'T' :: ' ' :: (fn ++ ' ' :: (natDigits bs ++ ' ' :: natDigits p)) =
      ('G' :: 'E' :: 'T' :: ' ' :: (fn ++ ' ' :: (natDigits bs ++ [' ']))) ++ natDigits p := by
    simp
  have hlastL :
      ('G' :: 'E' :: 'T' :: ' ' ::
        (fn ++ ' ' :: (natDigits bs ++ ' ' :: natDigits p))).getLast? = some d := by
    rw [hCend, getLast?_append_of_ne_nil
      ('G' :: 'E' :: 'T' :: ' ' :: (fn ++ ' ' :: (natDigits bs ++ [' '])))
      (natDigits p) (natDigits_ne_nil p)]
    exact hd
  have hlast : ∀ a,
      ('G' :: 'E' :: 'T' :: ' ' ::
        (fn ++ ' ' :: (natDigits bs ++ ' ' :: natDigits p))).getLast? = some a →
        goIsSpace a = false := by
    intro a ha
    rw [hlastL] at ha
    injection ha with ha
    subst ha
    exact isDigitC_not_space d hdig
  have hnl : Char.ofNat 10 ∉
      'G' :: 'E' :: 'T' :: ' ' :: (fn ++ ' ' :: (natDigits bs ++ ' ' :: natDigits p)) := by
    intro hmem
    rcases List.mem_cons.mp hmem with h | hmem
    · exact absurd h (by decide)
    rcases List.mem_cons.mp hmem with h | hmem
    · exact absurd h (by decide)
    rcases List.mem_cons.mp hmem with h | hmem
    · exact absurd h (by decide)
    rcases List.mem_cons.mp hmem with h | hmem
    · exact absurd h (by decide)
    rcases List.mem_append.mp hmem with h | hmem
    · exact absurd (hfns _ h) (by decide)
    rcases List.mem_cons.mp hmem with h | hmem
    · exact absurd h (by decide)
    rcases List.mem_append.mp hmem with h | hmem
    · exact absurd (natDigits_all_digit bs _ h) (by decide)
    rcases List.mem_cons.mp hmem with h | hmem
    · exact absurd h (by decide)
    · exact absurd (natDigits_all_digit p _ hmem) (by decide)
  have hcr :
      ('G' :: 'E' :: 'T' :: ' ' ::
        (fn ++ ' ' :: (natDigits bs ++ ' ' :: natDigits p))).getLast? ≠
        some (Char.ofNat 13) := by
    rw [hlastL]
    intro hEq
    injection hEq with hEq
    rw [hEq] at hdig
    exact absurd hdig (by decide)
  have hscan : scanLine (MarshalBinary (.get fn bs p)) =
      'G' :: 'E' :: 'T' :: ' ' :: (fn ++ ' ' :: (natDigits bs ++ ' ' :: natDigits p)) := by
    rw [hdata]
    exact scanLine_line _ hnl hcr
  have htrim : goTrim (MarshalBinary (.get fn bs p)) =
      'G' :: 'E' :: 'T' :: ' ' :: (fn ++ ' ' :: (natDigits bs ++ ' ' :: natDigits p)) := by
    rw [hdata]
    exact goTrim_line _ hhead hlast
  have hfieldsL :
      fields ('G' :: 'E' :: 'T' :: ' ' :: (fn ++ ' ' :: (natDigits bs ++ ' ' :: natDigits p))) =
        [['G', 'E', 'T'], fn, natDigits bs, natDigits p] := by
    have hg1 : 'G' :: 'E' :: 'T' :: ' ' :: (fn ++ ' ' :: (natDigits bs ++ ' ' :: natDigits p)) =
        ['G', 'E', 'T'] ++ (' ' :: (fn ++ ' ' :: (natDigits bs ++ ' ' :: natDigits p))) := by
      simp
    rw [hg1]
    rw [fields_token ['G', 'E', 'T'] (' ' :: (fn ++ ' ' :: (natDigits bs ++ ' ' :: natDigits p)))
      (by simp) (by decide) (fun a ha => by injection ha with ha; subst ha; decide)]
    rw [fields_space_cons ' ' (fn ++ ' ' :: (natDigits bs ++ ' ' :: natDigits p)) (by decide)]
    rw [fields_token fn (' ' :: (natDigits bs ++ ' ' :: natDigits p)) hfn hfns
      (fun a ha => by injection ha with ha; subst ha; decide)]
    rw [fields_space_cons ' ' (natDigits bs ++ ' ' :: natDigits p) (by decide)]
    rw [fields_token (natDigits bs) (' ' :: natDigits p) (natDigits_ne_nil bs)
      (fun c hc => isDigitC_not_space c (natDigits_all_digit bs c hc))
      (fun a ha => by injection ha with ha; subst ha; decide)]
    rw [fields_space_cons ' ' (natDigits p) (by decide)]
    rw [fields_singleton (natDigits p) (natDigits_ne_nil p)
      (fun c hc => isDigitC_not_space c (natDigits_all_digit p c hc))]
  have hP : ParseTcpInstruction ['G', 'E', 'T'] = .ok .GET := by decide
  have hget : getUnmarshalBinary (MarshalBinary (.get fn bs p)) =
      if bs = 0 then .error .validationE
      else if p = 0 ∨ p > 65535 then .error .validationE
      else .ok (.get fn bs p) := by
    unfold getUnmarshalBinary
    rw [htrim, hfieldsL]
    simp [hP, parseUint_natDigits bs hbs64, parseUint_natDigits p hp64, hfn]
  unfold UnmarshalCommand
  rw [if_neg (by rw [hdata]; simp), hscan, hfieldsL]
  exact hget

end GoTsunami
namespace GoTsunami

theorem UnmarshalCommand_ok_canonical (n : Nat) (h64 : n < 2 ^ 64) :
    UnmarshalCommand (MarshalBinary (.ok n)) = .ok (.ok n) := by
  obtain ⟨d, hd, hdig⟩ := natDigits_getLast n
  have hdata : MarshalBinary (.ok n) =
      ('O' :: 'K' :: ' ' :: natDigits n) ++ [Char.ofNat 10] := by
    simp [MarshalBinary]
  have hhead : ∀ a, ('O' :: 'K' :: ' ' :: natDigits n).head? = some a →
      goIsSpace a = false := by
    intro a ha
    injection ha with ha
    subst ha
    decide
  have hlastL : ('O' :: 'K' :: ' ' :: natDigits n).getLast? = some d := by
    rw [show 'O' :: 'K' :: ' ' :: natDigits n = ['O', 'K', ' '] ++ natDigits n from by simp,
      getLast?_append_of_ne_nil ['O', 'K', ' '] (natDigits n) (natDigits_ne_nil n)]
    exact hd
  have hlast : ∀ a, ('O' :: 'K' :: ' ' :: natDigits n).getLast? = some a →
      goIsSpace a = false := by
    intro a ha
    rw [hlastL] at ha
    injection ha with ha
    subst ha
    exact isDigitC_not_space d hdig
  have hnl : Char.ofNat 10 ∉ 'O' :: 'K' :: ' ' :: natDigits n := by
    intro hmem
    rcases List.mem_cons.mp hmem with h | hmem
    · exact absurd h (by decide)
    rcases List.mem_cons.mp hmem with h | hmem
    · exact absurd h (by decide)
    rcases List.mem_cons.mp hmem with h | hmem
    · exact absurd h (by decide)
    · exact absurd (natDigits_all_digit n _ hmem) (by decide)
  have hcr : ('O' :: 'K' :: ' ' :: natDigits n).getLast? ≠ some (Char.ofNat 13) := by
    rw [hlastL]
    intro hEq
    injection hEq with hEq
    rw [hEq] at hdig
    exact absurd hdig (by decide)
  have hscan : scanLine (MarshalBinary (.ok n)) = 'O' :: 'K' :: ' ' :: natDigits n := by
    rw [hdata]
    exact scanLine_line _ hnl hcr
  have htrim : goTrim (MarshalBinary (.ok n)) = 'O' :: 'K' :: ' ' :: natDigits n := by
    rw [hdata]
    exact goTrim_line _ hhead hlast
  have hfieldsL : fields ('O' :: 'K' :: ' ' :: natDigits n) = [['O', 'K'], natDigits n] := by
    rw [show 'O' :: 'K' :: ' ' :: natDigits n = ['O', 'K'] ++ (' ' :: natDigits n) from by simp]
    rw [fields_token ['O', 'K'] (' ' :: natDigits n) (by simp) (by decide)
      (fun a ha => by injection ha with ha; subst ha; decide)]
    rw [fields_space_cons ' ' (natDigits n) (by decide)]
    rw [fields_singleton (natDigits n) (natDigits_ne_nil n)
      (fun c hc => isDigitC_not_space c (natDigits_all_digit n c hc))]
  have hP : ParseTcpInstruction ['O', 'K'] = .ok .OK := by decide
  have hok : okUnmarshalBinary (MarshalBinary (.ok n)) = .ok (.ok n) := by
    unfold okUnmarshalBinary
    rw [htrim, hfieldsL]
    simp [hP, parseUint_natDigits n h64]
  unfold UnmarshalCommand
  rw [if_neg (by rw [hdata]; simp), hscan, hfieldsL]
  exact hok

theorem UnmarshalCommand_retr_canonical (n : Nat) (h64 : n < 2 ^ 64) :
    UnmarshalCommand (MarshalBinary (.retr n)) = .ok (.retr n) := by
  obtain ⟨d, hd, hdig⟩ := natDigits_getLast n
  have hdata : MarshalBinary (.retr n) =
      ('R' :: 'E' :: 'T' :: 'R' :: ' ' :: natDigits n) ++ [Char.ofNat 10] := by
    simp [MarshalBinary]
  have hhead : ∀ a, ('R' :: 'E' :: 'T' :: 'R' :: ' ' :: natDigits n).head? = some a →
      goIsSpace a = false := by
    intro a ha
    injection ha with ha
    subst ha
    decide
  have hlastL : ('R' :: 'E' :: 'T' :: 'R' :: ' ' :: natDigits n).getLast? = some d := by
    rw [show 'R' :: 'E' :: 'T' :: 'R' :: ' ' :: natDigits n =
        ['R', 'E', 'T', 'R', ' '] ++ natDigits n from by simp,
      getLast?_append_of_ne_nil ['R', 'E', 'T', 'R', ' '] (natDigits n) (natDigits_ne_nil n)]
    exact hd
  have hlast : ∀ a, ('R' :: 'E' :: 'T' :: 'R' :: ' ' :: natDigits n).getLast? = some a →
      goIsSpace a = false := by
    intro a ha
    rw [hlastL] at ha
    injection ha with ha
    subst ha
    exact isDigitC_not_space d hdig
  have hnl : Char.ofNat 10 ∉ 'R' :: 'E' :: 'T' :: 'R' :: ' ' :: natDigits n := by
    intro hmem
    rcases List.mem_cons.mp hmem with h | hmem
    · exact absurd h (by decide)
    rcases List.mem_cons.mp hmem with h | hmem
    · exact absurd h (by decide)
    rcases List.mem_cons.mp hmem with h | hmem
    · exact absurd h (by decide)
    rcases List.mem_cons.mp hmem with h | hmem
    · exact absurd h (by decide)
    rcases List.mem_cons.mp hmem with h | hmem
    · exact absurd h (by decide)
    · exact absurd (natDigits_all_digit n _ hmem) (by decide)
  have hcr : ('R' :: 'E' :: 'T' :: 'R' :: ' ' :: natDigits n).getLast? ≠
      some (Char.ofNat 13) := by
    rw [hlastL]
    intro hEq
    injection hEq with hEq
    rw [hEq] at hdig
    exact absurd hdig (by decide)
  have hscan : scanLine (MarshalBinary (.retr n)) =
      'R' :: 'E' :: 'T' :: 'R' :: ' ' :: natDigits n := by
    rw [hdata]
    exact scanLine_line _ hnl hcr
  have htrim : goTrim (MarshalBinary (.retr n)) =
      'R' :: 'E' :: 'T' :: 'R' :: ' ' :: natDigits n := by
    rw [hdata]
    exact goTrim_line _ hhead hlast
  have hfieldsL : fields ('R' :: 'E' :: 'T' :: 'R' :: ' ' :: natDigits n) =
      [['R', 'E', 'T', 'R'], natDigits n] := by
    rw [show 'R' :: 'E' :: 'T' :: 'R' :: ' ' :: natDigits n =
      ['R', 'E', 'T', 'R'] ++ (' ' :: natDigits n) from by simp]
    rw [fields_token ['R', 'E', 'T', 'R'] (' ' :: natDigits n) (by simp) (by decide)
      (fun a ha => by injection ha with ha; subst ha; decide)]
    rw [fields_space_cons ' ' (natDigits n) (by decide)]
    rw [fields_singleton (natDigits n) (natDigits_ne_nil n)
      (fun c hc => isDigitC_not_space c (natDigits_all_digit n c hc))]
  have hP : ParseTcpInstruction ['R', 'E', 'T', 'R'] = .ok .RETR := by decide
  have hok : retrUnmarshalBinary (MarshalBinary (.retr n)) = .ok (.retr n) := by
    unfold retrUnmarshalBinary
    rw [htrim, hfieldsL]
    simp [hP, parseUint_natDigits n h64]
  unfold UnmarshalCommand
  rw [if_neg (by rw [hdata]; simp), hscan, hfieldsL]
  exact hok

theorem UnmarshalCommand_rest_canonical (n : Nat) (h64 : n < 2 ^ 64) :
    UnmarshalCommand (MarshalBinary (.rest n)) = .ok (.rest n) := by
  obtain ⟨d, hd, hdig⟩ := natDigits_getLast n
  have hdata : MarshalBinary (.rest n) =
      ('R' :: 'E' :: 'S' :: 'T' :: ' ' :: natDigits n) ++ [Char.ofNat 10] := by
    simp [MarshalBinary]
  have hhead : ∀ a, ('R' :: 'E' :: 'S' :: 'T' :: ' ' :: natDigits n).head? = some a →
      goIsSpace a = false := by
    intro a ha
    injection ha with ha
    subst ha
    decide
  have hlastL : ('R' :: 'E' :: 'S' :: 'T' :: ' ' :: natDigits n).getLast? = some d := by
    rw [show 'R' :: 'E' :: 'S' :: 'T' :: ' ' :: natDigits n =
        ['R', 'E', 'S', 'T', ' '] ++ natDigits n from by simp,
      getLast?_append_of_ne_nil ['R', 'E', 'S', 'T', ' '] (natDigits n) (natDigits_ne_nil n)]
    exact hd
  have hlast : ∀ a, ('R' :: 'E' :: 'S' :: 'T' :: ' ' :: natDigits n).getLast? = some a →
      goIsSpace a = false := by
    intro a ha
    rw [hlastL] at ha
    injection ha with ha
    subst ha
    exact isDigitC_not_space d hdig
  have hnl : Char.ofNat 10 ∉ 'R' :: 'E' :: 'S' :: 'T' :: ' ' :: natDigits n := by
    intro hmem
    rcases List.mem_cons.mp hmem with h | hmem
    · exact absurd h (by decide)
    rcases List.mem_cons.mp hmem with h | hmem
    · exact absurd h (by decide)
    rcases List.mem_cons.mp hmem with h | hmem
    · exact absurd h (by decide)
    rcases List.mem_cons.mp hmem with h | hmem
    · exact absurd h (by decide)
    rcases List.mem_cons.mp hmem with h | hmem
    · exact absurd h (by decide)
    · exact absurd (natDigits_all_digit n _ hmem) (by decide)
  have hcr : ('R' :: 'E' :: 'S' :: 'T' :: ' ' :: natDigits n).getLast? ≠
      some (Char.ofNat 13) := by
    rw [hlastL]
    intro hEq
    injection hEq with hEq
    rw [hEq] at hdig
    exact absurd hdig (by decide)
  have hscan : scanLine (MarshalBinary (.rest n)) =
      'R' :: 'E' :: 'S' :: 'T' :: ' ' :: natDigits n := by
    rw [hdata]
    exact scanLine_line _ hnl hcr
  have htrim : goTrim (MarshalBinary (.rest n)) =
      'R' :: 'E' :: 'S' :: 'T' :: ' ' :: natDigits n := by
    rw [hdata]
    exact goTrim_line _ hhead hlast
  have hfieldsL : fields ('R' :: 'E' :: 'S' :: 'T' :: ' ' :: natDigits n) =
      [['R', 'E', 'S', 'T'], natDigits n] := by
    rw [show 'R' :: 'E' :: 'S' :: 'T' :: ' ' :: natDigits n =
      ['R', 'E', 'S', 'T'] ++ (' ' :: natDigits n) from by simp]
    rw [fields_token ['R', 'E', 'S', 'T'] (' ' :: natDigits n) (by simp) (by decide)
      (fun a ha => by injection ha with ha; subst ha; decide)]
    rw [fields_space_cons ' ' (natDigits n) (by decide)]
    rw [fields_singleton (natDigits n) (natDigits_ne_nil n)
      (fun c hc => isDigitC_not_space c (natDigits_all_digit n c hc))]
  have hP : ParseTcpInstruction ['R', 'E', 'S', 'T'] = .ok .REST := by decide
  have hok : restUnmarshalBinary (MarshalBinary (.rest n)) = .ok (.rest n) := by
    unfold restUnmarshalBinary
    rw [htrim, hfieldsL]
    simp [hP, parseUint_natDigits n h64]
  unfold UnmarshalCommand
  rw [if_neg (by rw [hdata]; simp), hscan, hfieldsL]
  exact hok

end GoTsunami
namespace GoTsunami

theorem UnmarshalCommand_err_canonical (m : List Char) (hm : m ≠ [])
    (htm : goTrim m = m) (hnl10 : Char.ofNat 10 ∉ m) :
    UnmarshalCommand (MarshalBinary (.err m)) = .ok (.err m) := by
  have hdata : MarshalBinary (.err m) =
      ('E' :: 'R' :: 'R' :: ' ' :: m) ++ [Char.ofNat 10] := by
    simp [MarshalBinary]
  obtain ⟨d, hd⟩ : ∃ d, m.getLast? = some d := by
    cases hgl : m.getLast? with
    | none => exact absurd (List.getLast?_eq_none_iff.mp hgl) hm
    | some d => exact ⟨d, rfl⟩
  have hdns : goIsSpace d = false := goTrim_self_last m htm d hd
  have hlastL : ('E' :: 'R' :: 'R' :: ' ' :: m).getLast? = some d := by
    rw [show 'E' :: 'R' :: 'R' :: ' ' :: m = ['E', 'R', 'R', ' '] ++ m from by simp,
      getLast?_append_of_ne_nil ['E', 'R', 'R', ' '] m hm]
    exact hd
  have hhead : ∀ a, ('E' :: 'R' :: 'R' :: ' ' :: m).head? = some a →
      goIsSpace a = false := by
    intro a ha
    injection ha with ha
    subst ha
    decide
  have hlast : ∀ a, ('E' :: 'R' :: 'R' :: ' ' :: m).getLast? = some a →
      goIsSpace a = false := by
    intro a ha
    rw [hlastL] at ha
    injection ha with ha
    subst ha
    exact hdns
  have hnl : Char.ofNat 10 ∉ 'E' :: 'R' :: 'R' :: ' ' :: m := by
    intro hmem
    rcases List.mem_cons.mp hmem with h | hmem
    · exact absurd h (by decide)
    rcases List.mem_cons.mp hmem with h | hmem
    · exact absurd h (by decide)
    rcases List.mem_cons.mp hmem with h | hmem
    · exact absurd h (by decide)
    rcases List.mem_cons.mp hmem with h | hmem
    · exact absurd h (by decide)
    · exact hnl10 hmem
  have hcr : ('E' :: 'R' :: 'R' :: ' ' :: m).getLast? ≠ some (Char.ofNat 13) := by
    rw [hlastL]
    intro hEq
    injection hEq with hEq
    rw [hEq] at hdns
    exact absurd hdns (by decide)
  have hscan : scanLine (MarshalBinary (.err m)) = 'E' :: 'R' :: 'R' :: ' ' :: m := by
    rw [hdata]
    exact scanLine_line _ hnl hcr
  have htrim : goTrim (MarshalBinary (.err m)) = 'E' :: 'R' :: 'R' :: ' ' :: m := by
    rw [hdata]
    exact goTrim_line _ hhead hlast
  have hfieldsH : fields ('E' :: 'R' :: 'R' :: ' ' :: m) =
      ['E', 'R', 'R'] :: fields (' ' :: m) := by
    rw [show 'E' :: 'R' :: 'R' :: ' ' :: m = ['E', 'R', 'R'] ++ (' ' :: m) from by simp]
    exact fields_token ['E', 'R', 'R'] (' ' :: m) (by simp) (by decide)
      (fun a ha => by injection ha with ha; subst ha; decide)
  have hcond : (goToUpper ('E' :: 'R' :: 'R' :: ' ' :: m)).take 4 = ['E', 'R', 'R', ' '] := by
    rfl
  have herr : errUnmarshalBinary (MarshalBinary (.err m)) = .ok (.err m) := by
    unfold errUnmarshalBinary
    rw [htrim, if_pos hcond]
    have hmlen : 0 < m.length := List.length_pos.mpr hm
    rw [if_neg (by simp only [List.length_cons]; omega)]
    rw [show ('E' :: 'R' :: 'R' :: ' ' :: m).drop 4 = m from rfl, htm]
  unfold UnmarshalCommand
  rw [if_neg (by rw [hdata]; simp), hscan, hfieldsH]
  exact herr

theorem UnmarshalCommand_done_canonical :
    UnmarshalCommand (MarshalBinary .done) = .ok .done := by decide

end GoTsunami
namespace GoTsunami

/-- C2 (amended): every command within the declared bounds — and, for
Err, with a message that is already trimmed and line-feed free —
round-trips through MarshalBinary and UnmarshalCommand of part_000. -/
theorem C2_roundtrip_amended (c : Cmd) (h : withinDeclaredBounds c) :
    UnmarshalCommand (MarshalBinary c) = .ok c := by
  cases c with
  | get fn bs p =>
    obtain ⟨hfn, hfns, hbs0, hbs64, hp0, hple⟩ := h
    rw [UnmarshalCommand_get_canonical fn bs p hfn hfns hbs64 (by omega)]
    rw [if_neg (by omega), if_neg (by omega)]
  | ok n => exact UnmarshalCommand_ok_canonical n h
  | retr n => exact UnmarshalCommand_retr_canonical n h
  | rest n => exact UnmarshalCommand_rest_canonical n h
  | err m => exact UnmarshalCommand_err_canonical m h.1 h.2.1 h.2.2
  | done => exact UnmarshalCommand_done_canonical

/-- Closed instance of the amended C2 round-trip at GET f 1 1. -/
theorem C2_roundtrip_witness :
    UnmarshalCommand (MarshalBinary (.get ['f'] 1 1)) = .ok (.get ['f'] 1 1) :=
  C2_roundtrip_amended (.get ['f'] 1 1)
    (by refine ⟨?_, ?_, ?_, ?_, ?_, ?_⟩ <;> decide)

end GoTsunami
namespace GoTsunami

theorem fieldsFuel_mem_spec (fuel : Nat) : ∀ s t, t ∈ fieldsFuel fuel s →
    t ≠ [] ∧ ∀ c ∈ t, goIsSpace c = false := by
  induction fuel with
  | zero =>
    intro s t ht
    cases s <;> simp [fieldsFuel] at ht
  | succ fuel ih =>
    intro s t ht
    cases s with
    | nil => simp [fieldsFuel] at ht
    | cons c cs =>
      rw [show fieldsFuel (fuel + 1) (c :: cs) =
          if goIsSpace c then fieldsFuel fuel cs
          else (c :: cs.takeWhile notSpace) :: fieldsFuel fuel (cs.dropWhile notSpace)
        from rfl] at ht
      by_cases hc : goIsSpace c = true
      · rw [if_pos hc] at ht
        exact ih cs t ht
      · rw [if_neg hc] at ht
        rcases List.mem_cons.mp ht with h | h
        · subst h
          refine ⟨by simp, ?_⟩
          intro a ha
          rcases List.mem_cons.mp ha with h | h
          · subst h
            exact Bool.eq_false_iff.mpr hc
          · have := List.mem_takeWhile_imp h
            simpa [notSpace] using this
        · exact ih _ t h

theorem fields_mem_spec (s t : List Char) (ht : t ∈ fields s) :
    t ≠ [] ∧ ∀ c ∈ t, goIsSpace c = false :=
  fieldsFuel_mem_spec s.length s t ht

theorem parseUint_some_lt (s : List Char) (n : Nat)
    (h : parseUintChars s = some n) : n < 2 ^ 64 := by
  by_cases h1 : s = []
  · simp [parseUintChars, h1] at h
  · by_cases h2 : s.all isDigitC
    · by_cases h3 : digitsVal s < 2 ^ 64
      · simp only [parseUintChars, h1, if_false, h2, if_true, h3,
          Option.some.injEq] at h
        exact h ▸ h3
      · simp [parseUintChars, h1, h2, h3] at h
        exact absurd h.1 h3
    · simp [parseUintChars, h1, h2] at h

theorem getLast?_drop_of_ne_nil (l : List Char) (n : Nat) (h : l.drop n ≠ []) :
    (l.drop n).getLast? = l.getLast? := by
  conv_rhs => rw [← List.take_append_drop n l]
  rw [getLast?_append_of_ne_nil (l.take n) (l.drop n) h]

theorem getUnmarshalBinary_sound (data : List Char) (c : Cmd)
    (h : getUnmarshalBinary data = .ok c) : decodedWithinBounds c := by
  unfold getUnmarshalBinary at h
  split at h
  next p0 p1 p2 p3 heq =>
    split at h
    · simp at h
    next i =>
      split at h
      · simp at h
      next hi =>
        split at h
        · simp at h
        next bs hbs =>
          split at h
          · simp at h
          next p hp =>
            split at h
            · simp at h
            next hp1 =>
              split at h
              · simp at h
              next hbs0 =>
                split at h
                · simp at h
                next hport =>
                  injection h with h
                  subst h
                  refine ⟨hp1, ?_, by omega, parseUint_some_lt p2 bs hbs, by omega, by omega⟩
                  exact (fields_mem_spec (goTrim data) p1 (by rw [heq]; simp)).2
  next => simp at h

theorem okUnmarshalBinary_sound (data : List Char) (c : Cmd)
    (h : okUnmarshalBinary data = .ok c) : decodedWithinBounds c := by
  unfold okUnmarshalBinary at h
  split at h
  next p0 p1 heq =>
    split at h
    · simp at h
    next i =>
      split at h
      · simp at h
      next hi =>
        split at h
        · simp at h
        next n hn =>
          injection h with h
          subst h
          exact parseUint_some_lt p1 n hn
  next => simp at h

theorem retrUnmarshalBinary_sound (data : List Char) (c : Cmd)
    (h : retrUnmarshalBinary data = .ok c) : decodedWithinBounds c := by
  unfold retrUnmarshalBinary at h
  split at h
  next p0 p1 heq =>
    split at h
    · simp at h
    next i =>
      split at h
      · simp at h
      next hi =>
        split at h
        · simp at h
        next n hn =>
          injection h with h
          subst h
          exact parseUint_some_lt p1 n hn
  next => simp at h

theorem restUnmarshalBinary_sound (data : List Char) (c : Cmd)
    (h : restUnmarshalBinary data = .ok c) : decodedWithinBounds c := by
  unfold restUnmarshalBinary at h
  split at h
  next p0 p1 heq =>
    split at h
    · simp at h
    next i =>
      split at h
      · simp at h
      next hi =>
        split at h
        · simp at h
        next n hn =>
          injection h with h
          subst h
          exact parseUint_some_lt p1 n hn
  next => simp at h

theorem errUnmarshalBinary_sound (data : List Char) (c : Cmd)
    (h : errUnmarshalBinary data = .ok c) : decodedWithinBounds c := by
  unfold errUnmarshalBinary at h
  split at h
  · split at h
    · simp at h
    next hlen =>
      injection h with h
      subst h
      refine ⟨?_, goTrim_idem _⟩
      intro hnil
      have hlen2 : 4 < (goTrim data).length := by omega
      have hdropne : (goTrim data).drop 4 ≠ [] := by
        intro hEq
        have := List.drop_eq_nil_iff.mp hEq
        omega
      obtain ⟨d, hd⟩ : ∃ d, ((goTrim data).drop 4).getLast? = some d := by
        cases hgl : ((goTrim data).drop 4).getLast? with
        | none => exact absurd (List.getLast?_eq_none_iff.mp hgl) hdropne
        | some d => exact ⟨d, rfl⟩
      have hdt : (goTrim data).getLast? = some d := by
        rw [← getLast?_drop_of_ne_nil (goTrim data) 4 hdropne]
        exact hd
      have hdns : goIsSpace d = false :=
        goTrim_self_last (goTrim data) (goTrim_idem data) d hdt
      have hdsp : goIsSpace d = true :=
        goTrim_nil_all_space _ hnil d (List.mem_of_mem_getLast? (by rw [hd]; rfl))
      rw [hdns] at hdsp
      exact absurd hdsp (by decide)
  · simp at h

theorem doneUnmarshalBinary_sound (data : List Char) (c : Cmd)
    (h : doneUnmarshalBinary data = .ok c) : decodedWithinBounds c := by
  unfold doneUnmarshalBinary at h
  split at h
  next p0 heq =>
    split at h
    · simp at h
    next i =>
      split at h
      · simp at h
      next hi =>
        injection h with h
        subst h
        trivial
  next => simp at h

theorem UnmarshalCommand_sound (data : List Char) (c : Cmd)
    (h : UnmarshalCommand data = .ok c) : decodedWithinBounds c := by
  unfold UnmarshalCommand at h
  split at h
  · simp at h
  · split at h
    · simp at h
    · split at h
      · simp at h
      · exact getUnmarshalBinary_sound data c h
      · exact retrUnmarshalBinary_sound data c h
      · exact okUnmarshalBinary_sound data c h
      · exact errUnmarshalBinary_sound data c h
      · exact restUnmarshalBinary_sound data c h
      · exact doneUnmarshalBinary_sound data c h
      · simp at h

end GoTsunami
namespace GoTsunami

theorem errMarshal_space_only (m : List Char) (hsp : ∀ ch ∈ m, ch = ' ') :
    UnmarshalCommand (MarshalBinary (.err m)) = .error .protocolE := by
  have hdata : MarshalBinary (.err m) =
      ('E' :: 'R' :: 'R' :: ' ' :: m) ++ [Char.ofNat 10] := by
    simp [MarshalBinary]
  have hnl : Char.ofNat 10 ∉ 'E' :: 'R' :: 'R' :: ' ' :: m := by
    intro hmem
    rcases List.mem_cons.mp hmem with h | hmem
    · exact absurd h (by decide)
    rcases List.mem_cons.mp hmem with h | hmem
    · exact absurd h (by decide)
    rcases List.mem_cons.mp hmem with h | hmem
    · exact absurd h (by decide)
    rcases List.mem_cons.mp hmem with h | hmem
    · exact absurd h (by decide)
    · exact absurd (hsp _ hmem) (by decide)
  have hcr : ('E' :: 'R' :: 'R' :: ' ' :: m).getLast? ≠ some (Char.ofNat 13) := by
    intro hEq
    have hmem := List.mem_of_mem_getLast? (l := 'E' :: 'R' :: 'R' :: ' ' :: m)
      (a := Char.ofNat 13) (by rw [hEq]; rfl)
    rcases List.mem_cons.mp hmem with h | hmem
    · exact absurd h (by decide)
    rcases List.mem_cons.mp hmem with h | hmem
    · exact absurd h (by decide)
    rcases List.mem_cons.mp hmem with h | hmem
    · exact absurd h (by decide)
    rcases List.mem_cons.mp hmem with h | hmem
    · exact absurd h (by decide)
    · exact absurd (hsp _ hmem) (by decide)
  have hscan : scanLine (MarshalBinary (.err m)) = 'E' :: 'R' :: 'R' :: ' ' :: m := by
    rw [hdata]
    exact scanLine_line _ hnl hcr
  have hwsp : ∀ c ∈ ' ' :: (m ++ [Char.ofNat 10]), goIsSpace c = true := by
    intro c hc
    rcases List.mem_cons.mp hc with h | hc
    · subst h; decide
    rcases List.mem_append.mp hc with h | h
    · rw [hsp c h]; decide
    · rcases List.mem_singleton.mp h with rfl; decide
  have htrim : goTrim (MarshalBinary (.err m)) = ['E', 'R', 'R'] := by
    have hdata2 : MarshalBinary (.err m) =
        ['E', 'R', 'R'] ++ (' ' :: (m ++ [Char.ofNat 10])) := by
      simp [MarshalBinary]
    rw [hdata2]
    show goTrimRight (goTrimLeft (['E', 'R', 'R'] ++ (' ' :: (m ++ [Char.ofNat 10])))) = _
    rw [goTrimLeft_clean _ (fun a ha => by injection ha with ha; subst ha; decide)]
    rw [goTrimRight_append_space ['E', 'R', 'R'] (' ' :: (m ++ [Char.ofNat 10])) hwsp]
    decide
  have hfieldsH : fields ('E' :: 'R' :: 'R' :: ' ' :: m) =
      ['E', 'R', 'R'] :: fields (' ' :: m) := by
    rw [show 'E' :: 'R' :: 'R' :: ' ' :: m = ['E', 'R', 'R'] ++ (' ' :: m) from by simp]
    exact fields_token ['E', 'R', 'R'] (' ' :: m) (by simp) (by decide)
      (fun a ha => by injection ha with ha; subst ha; decide)
  have herr : errUnmarshalBinary (MarshalBinary (.err m)) = .error .protocolE := by
    unfold errUnmarshalBinary
    rw [htrim, if_neg (by decide)]
  unfold UnmarshalCommand
  rw [if_neg (by rw [hdata]; simp), hscan, hfieldsH]
  exact herr

end GoTsunami
namespace GoTsunami

theorem getUnmarshalBinary_validation (data : List Char)
    (p0 p1 p2 p3 : List Char) (bs p : Nat)
    (hf : fields (goTrim data) = [p0, p1, p2, p3])
    (hP : ParseTcpInstruction p0 = .ok .GET)
    (hbs : parseUintChars p2 = some bs) (hp : parseUintChars p3 = some p)
    (hbad : p1 = [] ∨ bs = 0 ∨ p = 0 ∨ p > 65535) :
    getUnmarshalBinary data = .error .validationE := by
  unfold getUnmarshalBinary
  rw [hf]
  simp only [hP, hbs, hp]
  rw [if_neg (by simp)]
  by_cases hp1 : p1 = []
  · rw [if_pos hp1]
  · rw [if_neg hp1]
    by_cases hbs0 : bs = 0
    · rw [if_pos hbs0]
    · rw [if_neg hbs0]
      rcases hbad with h | h | h | h
      · exact absurd h hp1
      · exact absurd h hbs0
      · rw [if_pos (Or.inl h)]
      · rw [if_pos (Or.inr h)]

theorem getUnmarshalBinary_arity (data : List Char)
    (h : (fields (goTrim data)).length ≠ 4) :
    getUnmarshalBinary data = .error .parseE := by
  unfold getUnmarshalBinary
  split
  next p0 p1 p2 p3 heq =>
    have h4 : (fields (goTrim data)).length = 4 := by simp [heq]
    exact absurd h4 h
  next => rfl

theorem okUnmarshalBinary_arity (data : List Char)
    (h : (fields (goTrim data)).length ≠ 2) :
    okUnmarshalBinary data = .error .parseE := by
  unfold okUnmarshalBinary
  split
  next p0 p1 heq =>
    have h2 : (fields (goTrim data)).length = 2 := by simp [heq]
    exact absurd h2 h
  next => rfl

theorem retrUnmarshalBinary_arity (data : List Char)
    (h : (fields (goTrim data)).length ≠ 2) :
    retrUnmarshalBinary data = .error .parseE := by
  unfold retrUnmarshalBinary
  split
  next p0 p1 heq =>
    have h2 : (fields (goTrim data)).length = 2 := by simp [heq]
    exact absurd h2 h
  next => rfl

theorem restUnmarshalBinary_arity (data : List Char)
    (h : (fields (goTrim data)).length ≠ 2) :
    restUnmarshalBinary data = .error .parseE := by
  unfold restUnmarshalBinary
  split
  next p0 p1 heq =>
    have h2 : (fields (goTrim data)).length = 2 := by simp [heq]
    exact absurd h2 h
  next => rfl

theorem doneUnmarshalBinary_arity (data : List Char)
    (h : (fields (goTrim data)).length ≠ 1) :
    doneUnmarshalBinary data = .error .parseE := by
  unfold doneUnmarshalBinary
  split
  next p0 heq =>
    have h1 : (fields (goTrim data)).length = 1 := by simp [heq]
    exact absurd h1 h
  next => rfl

/-- C5 (amended): (i) soundness — every successful decode of part_000
satisfies the decoder-enforced bounds, so no out-of-bounds value ever
decodes successfully; (ii) an ERR line whose message is blank is
rejected, but with an invalid_format ProtocolError (newProtocolError),
not a parse or validation error as the claim states; (iii) every GET
line that splits into four fields with parsable numbers but an empty
filename, blocksize 0, port 0 or port above 65535 yields a validation
error, in particular every marshalled GET line with such blocksize or
port; (iv) every line whose field count differs from the variant's
arity — a missing or an extra field — yields a parse error from that
variant's decoder. -/
theorem C5_validation_amended :
    (∀ data c, UnmarshalCommand data = .ok c → decodedWithinBounds c) ∧
    (∀ m, (∀ ch ∈ m, ch = ' ') →
        UnmarshalCommand (MarshalBinary (.err m)) = .error .protocolE) ∧
    (∀ data p0 p1 p2 p3 bs p,
        fields (goTrim data) = [p0, p1, p2, p3] →
        ParseTcpInstruction p0 = .ok .GET →
        parseUintChars p2 = some bs → parseUintChars p3 = some p →
        (p1 = [] ∨ bs = 0 ∨ p = 0 ∨ p > 65535) →
        getUnmarshalBinary data = .error .validationE) ∧
    (∀ fn bs p, fn ≠ [] → (∀ ch ∈ fn, goIsSpace ch = false) →
        bs < 2 ^ 64 → p < 2 ^ 64 → (bs = 0 ∨ p = 0 ∨ p > 65535) →
        UnmarshalCommand (MarshalBinary (.get fn bs p)) = .error .validationE) ∧
    (∀ data, (fields (goTrim data)).length ≠ 4 →
        getUnmarshalBinary data = .error .parseE) ∧
    (∀ data, (fields (goTrim data)).length ≠ 2 →
        okUnmarshalBinary data = .error .parseE ∧
          retrUnmarshalBinary data = .error .parseE ∧
          restUnmarshalBinary data = .error .parseE) ∧
    (∀ data, (fields (goTrim data)).length ≠ 1 →
        doneUnmarshalBinary data = .error .parseE) := by
  refine ⟨UnmarshalCommand_sound, errMarshal_space_only,
    getUnmarshalBinary_validation, ?_, getUnmarshalBinary_arity,
    fun data h => ⟨okUnmarshalBinary_arity data h,
      retrUnmarshalBinary_arity data h, restUnmarshalBinary_arity data h⟩,
    doneUnmarshalBinary_arity⟩
  intro fn bs p hfn hfns hbs64 hp64 hout
  rw [UnmarshalCommand_get_canonical fn bs p hfn hfns hbs64 hp64]
  rcases hout with h | h
  · rw [if_pos h]
  · rcases Nat.eq_zero_or_pos bs with hbs | hbs
    · rw [if_pos hbs]
    · rw [if_neg (by omega), if_pos h]

/-- Closed instances of the amended C5 statement. -/
theorem C5_validation_witness :
    decodedWithinBounds (Cmd.ok 5) ∧
      UnmarshalCommand (MarshalBinary (.err [' ', ' '])) = .error .protocolE ∧
      getUnmarshalBinary ['G', 'E', 'T', ' ', 'f', ' ', '0', ' ', '1'] =
        .error .validationE ∧
      UnmarshalCommand (MarshalBinary (.get ['f'] 0 1)) = .error .validationE ∧
      getUnmarshalBinary ['G', 'E', 'T', ' ', 'f', ' ', '1'] = .error .parseE ∧
      okUnmarshalBinary ['O', 'K'] = .error .parseE ∧
      doneUnmarshalBinary ['D', 'O', 'N', 'E', ' ', '1'] = .error .parseE := by
  refine ⟨?_, ?_, ?_, ?_, ?_, ?_, ?_⟩
  · exact C5_validation_amended.1 ['O', 'K', ' ', '5', Char.ofNat 10] (Cmd.ok 5) (by decide)
  · exact C5_validation_amended.2.1 [' ', ' '] (by decide)
  · exact C5_validation_amended.2.2.1 ['G', 'E', 'T', ' ', 'f', ' ', '0', ' ', '1']
      ['G', 'E', 'T'] ['f'] ['0'] ['1'] 0 1 (by decide) (by decide) (by decide)
      (by decide) (Or.inr (Or.inl rfl))
  · exact C5_validation_amended.2.2.2.1 ['f'] 0 1 (by decide) (by decide) (by decide)
      (by decide) (Or.inl rfl)
  · exact C5_validation_amended.2.2.2.2.1 ['G', 'E', 'T', ' ', 'f', ' ', '1'] (by decide)
  · exact (C5_validation_amended.2.2.2.2.2.1 ['O', 'K'] (by decide)).1
  · exact C5_validation_amended.2.2.2.2.2.2 ['D', 'O', 'N', 'E', ' ', '1'] (by decide)

end GoTsunami
namespace GoTsunami

theorem createTransmissionState_fail (env : GetEnv)
    (reg : String → Option TransState) (ip : String) (fn : List Char)
    (bs : Nat) (e : ServerError)
    (h : (createTransmissionState env reg ip fn bs).res = .error e) :
    (createTransmissionState env reg ip fn bs).registry = reg ∧
      ((createTransmissionState env reg ip fn bs).fileOpened = true →
        (createTransmissionState env reg ip fn bs).fileClosed = true) := by
  unfold createTransmissionState at h ⊢
  cases ho : env.openRes with
  | error u =>
    exact ⟨rfl, by intro h2; exact absurd h2 (by simp)⟩
  | ok file =>
    cases hs : env.statRes with
    | error u =>
      exact ⟨rfl, fun _ => rfl⟩
    | ok size =>
      cases hd : env.dialRes with
      | error u =>
        exact ⟨rfl, fun _ => rfl⟩
      | ok u =>
        rw [ho, hs, hd] at h
        simp at h

/-- C6 (amended): (i) whenever createTransmissionState fails, the
registry is unchanged and a file handle opened by the attempt is
closed; (ii) when the initial size check of handleGetCommand fails, the
session replies ERR and the registry is unchanged; (iii) when the size
check succeeds but the background createTransmissionState fails — in
particular when the UDP dial fails — the client receives only the OK
reply: contrary to the claim, no ERR is written on the TCP channel,
because the spawned task merely logs the failure. -/
theorem C6_get_failure_amended :
    (∀ env reg ip fn bs e,
        (createTransmissionState env reg ip fn bs).res = .error e →
        (createTransmissionState env reg ip fn bs).registry = reg ∧
          ((createTransmissionState env reg ip fn bs).fileOpened = true →
            (createTransmissionState env reg ip fn bs).fileClosed = true)) ∧
    (∀ env reg ip fn bs u, env.sizeCheck = .error u →
        (handleGetRun env reg ip fn bs).replies = [Reply.errReply] ∧
          (handleGetRun env reg ip fn bs).registry = reg) ∧
    (∀ env reg ip fn bs size e, env.sizeCheck = .ok size →
        (createTransmissionState env reg ip fn bs).res = .error e →
        (handleGetRun env reg ip fn bs).replies = [Reply.okReply size] ∧
          Reply.errReply ∉ (handleGetRun env reg ip fn bs).replies ∧
          (handleGetRun env reg ip fn bs).registry = reg) := by
  refine ⟨createTransmissionState_fail, ?_, ?_⟩
  · intro env reg ip fn bs u h
    unfold handleGetRun
    rw [h]
    exact ⟨rfl, rfl⟩
  · intro env reg ip fn bs size e hsc hcr
    unfold handleGetRun
    rw [hsc]
    refine ⟨rfl, by simp, ?_⟩
    exact (createTransmissionState_fail env reg ip fn bs e hcr).1

/-- Closed instance of the amended C6 statement in the environment
where the size check succeeds and the UDP dial fails. -/
theorem C6_get_failure_witness :
    (createTransmissionState envDialFail (fun _ => none) ipA ['t'] 10).res =
      .error .networkError ∧
      (handleGetRun envDialFail (fun _ => none) ipA ['t'] 10).replies =
        [Reply.okReply 20] := by
  refine ⟨rfl, ?_⟩
  exact (C6_get_failure_amended.2.2 envDialFail (fun _ => none) ipA ['t'] 10 20
    .networkError rfl rfl).1

end GoTsunami
